import Mathlib

/-!
# Verification of the base-N / base-2 palindrome search engine

Shallow embedding of `Attempt4_Solution.cpp`: the operation algebra
(`Increment`, `PairedOps`), the per-length palindrome `Generator`, the
stateful binary-palindrome detector `IsBinaryPalindrome`, and the driver
`calc_Pn`, together with proofs about them.

Machine integers: the C++ code works on `uint64_t` and guards every
addition with an explicit `palindrome > ULLONG_MAX - adder` check before
adding, so no addition ever wraps.  We therefore model register values as
`Nat` and model the fatal overflow path (`exit(1)` after printing a
diagnostic) as `Option.none`; whenever the guard passes, the `Nat`
addition agrees with the machine addition.
-/

set_option autoImplicit false

namespace BentWinter2025

/-- `ULLONG_MAX` for the 64-bit unsigned registers used by the program. -/
def U64MAX : Nat := 2 ^ 64 - 1

/-- State of an `Operation` node: either an `Increment` (`_adder`,
`_repeat`, `_counter`) or a `PairedOps` (`_on_S`, `_S`, `_I`, `_repeat`,
`_counter`).  Constructor argument order mirrors the C++ member order. -/
inductive Op : Type where
  | inc (adder : Nat) (rpt : Nat) (counter : Nat)
  | paired (onS : Bool) (S : Op) (I : Nat) (rpt : Nat) (counter : Nat)
deriving DecidableEq, Repr

/-- One call of `Operation::step(palindrome)`.  Returns `none` when the
64-bit overflow guard fires (the C++ prints a diagnostic and calls
`exit(1)`); otherwise returns the updated operation state, the updated
register, and the C++ return value (`true` = more iterations remain,
`false` = the operation completed and reset). -/
def step : Op → Nat → Option (Op × Nat × Bool)
  | .inc adder rpt counter, p =>
      if U64MAX - adder < p then
        none
      else
        let p' := p + adder
        let counter' := counter + 1
        if counter' = rpt then
          some (.inc adder rpt 0, p', false)
        else
          some (.inc adder rpt counter', p', true)
  | .paired onS S I rpt counter, p =>
      if counter < rpt then
        if onS then
          match step S p with
          | none => none
          | some (S', p', more) => some (.paired more S' I rpt counter, p', true)
        else
          if U64MAX - I < p then
            none
          else
            some (.paired true S I rpt (counter + 1), p + I, true)
      else
        match step S p with
        | none => none
        | some (S', p', more) =>
            if more then
              some (.paired onS S' I rpt counter, p', true)
            else
              some (.paired true S' I rpt 0, p', false)

/-- State of a `Generator`: the `_done` flag and the root `_seq` of the
operation tree. -/
structure GenState : Type where
  done : Bool
  seq : Op
deriving DecidableEq, Repr

/-- `Generator::step(palindrome)`: when `_done`, add the roll-over
constant `2` (with the same overflow guard) and report completion;
otherwise delegate to the root operation and record whether it finished. -/
def genStep (g : GenState) (p : Nat) : Option (GenState × Nat × Bool) :=
  if g.done then
    if U64MAX - 2 < p then none
    else some (⟨false, g.seq⟩, p + 2, false)
  else
    match step g.seq p with
    | none => none
    | some (seq', p', more) => some (⟨!more, seq'⟩, p', true)

/-- The loop `for(i=1; i<k; ++i) { Si = new PairedOps(m, Si, I); I /= N; }`
from the `Generator` constructor, returning the final `Si` and `I`. -/
def buildChain (m N : Nat) : Op → Nat → Nat → Op × Nat
  | Si, I, 0 => (Si, I)
  | Si, I, j + 1 => buildChain m N (.paired true Si I m 0) (I / N) j

/-- The operation tree built by `Generator::Generator(N, length)`
(fresh state: all counters `0`, all `_on_S` flags `true`). -/
def buildSeq (N length : Nat) : Op :=
  let k := (length + 1) / 2 - 1
  let odd := length % 2 = 1
  let m := N - 1
  let q := m - 1
  if length = 2 then
    .inc (N + 1) q 0
  else
    let M := (if odd then N else N * (N + 1)) * N ^ (k - 1)
    let I := (N + 1) * N ^ (k - 1)
    let (Si, I') := buildChain m N (.inc M m 0) I (k - 1)
    .paired true Si I' q 0

/-- A freshly constructed `Generator(N, length)`. -/
def mkGen (N length : Nat) : GenState := ⟨false, buildSeq N length⟩

/-- State of an `IsBinaryPalindrome` functor: `_msb` (only the most
significant bit of the largest input seen is set) and `_mask` (only the
bits above `_msb` are set), both `uint64_t` values. -/
structure BState : Type where
  msb : Nat
  mask : Nat
deriving DecidableEq, Repr

/-- The freshly constructed detector: `_msb = 1`, `_mask = ~0x1`. -/
def initB : BState := ⟨1, 2 ^ 64 - 2⟩

/-- The `while(p & _mask)` loop of `IsBinaryPalindrome::operator()`,
shifting `_msb` and `_mask` left (as 64-bit values).  The loop runs at
most 63 times on well-formed states, so fuel 64 is never exhausted. -/
def growB (p : Nat) : Nat → Nat → Nat → Nat × Nat
  | msb, mask, 0 => (msb, mask)
  | msb, mask, fuel + 1 =>
      if p &&& mask ≠ 0 then
        growB p (msb * 2 % 2 ^ 64) (mask * 2 % 2 ^ 64) fuel
      else
        (msb, mask)

/-- The `while(a>b)` bit-pair comparison loop of
`IsBinaryPalindrome::operator()`.  On well-formed calls `a = 2^i`,
`b = 2^j` with `i ≤ 63`, so fuel 64 is never exhausted. -/
def pairScan (p : Nat) : Nat → Nat → Nat → Bool
  | _, _, 0 => true
  | a, b, fuel + 1 =>
      if b < a then
        let t := a ||| b
        let q := p &&& t
        if q = 0 ∨ q = t then pairScan p (a / 2) (b * 2) fuel
        else false
      else
        true

/-- One call of `IsBinaryPalindrome::operator()(p)`: reject even inputs,
grow `_msb`/`_mask` to cover `p`, then compare bit pairs from the outside
in.  Returns the verdict together with the updated detector state. -/
def isBinPal (s : BState) (p : Nat) : Bool × BState :=
  if p % 2 = 0 then
    (false, s)
  else
    let (msb, mask) := growB p s.msb s.mask 64
    (pairScan p msb 1 64, ⟨msb, mask⟩)

/-- The loop of `calc_Pn`, instrumented: runs the current generator,
testing the register with the detector after every step that reports
more work (the C++ `while(g.step(p)) if(is_binary_palindrome(p)) ...`);
when a generator completes, builds the generator for the next length.
Returns the found value (or `none` on fuel exhaustion / overflow exit)
together with the list of register values that were passed to the
detector. -/
def calcPnLoop (N : Nat) : BState → Nat → Nat → GenState → Nat →
    Option Nat × List Nat
  | _, _, _, _, 0 => (none, [])
  | s, p, L, g, fuel + 1 =>
      match genStep g p with
      | none => (none, [])
      | some (g', p', more) =>
          if more then
            let (r, s') := isBinPal s p'
            if r then
              (some p', [p'])
            else
              let (res, tested) := calcPnLoop N s' p' L g' fuel
              (res, p' :: tested)
          else
            calcPnLoop N s p' (L + 1) (mkGen N (L + 1)) fuel

/-- `calc_Pn(N)` with the values it passed to the detector: seeds the
register to `N + 1`, starts at digit length `L = 2`, and searches with the
given fuel (the C++ loop is unbounded; `none` means the fuel ran out or
the overflow exit fired). -/
def calcPnTested (N fuel : Nat) : Option Nat × List Nat :=
  calcPnLoop N initB (N + 1) 2 (mkGen N 2) fuel

/-- The value returned by `calc_Pn(N)` (given enough fuel). -/
def calcPn (N fuel : Nat) : Option Nat :=
  (calcPnTested N fuel).1

/-- The emission loop of `main`: processes the given list of bases `N` in
order with the running maximum `maxPn`, emitting `(N, P(N))` exactly when
`P(N)` exceeds every previously emitted value. -/
def mainEmits (fuel : Nat) : Nat → List Nat → List (Nat × Nat)
  | _, [] => []
  | maxPn, N :: rest =>
      let pn := (calcPn N fuel).getD 0
      if maxPn < pn then
        (N, pn) :: mainEmits fuel pn rest
      else
        mainEmits fuel maxPn rest

/-! ## Specification layer for the operation algebra

Every `step` call performs exactly one addition.  `cycle op` is the list
of addends applied over one complete cycle of `op` (from its fresh
state); `rem op` is the list of addends still to be applied before the
current cycle completes; `reset op` is the fresh state with the same
structure. -/

/-- The fresh state of an operation: counters `0`, `_on_S` flags `true`. -/
def reset : Op → Op
  | .inc a n _ => .inc a n 0
  | .paired _ S I n _ => .paired true (reset S) I n 0

/-- Addends applied during one complete cycle of the operation, in order:
`Increment` adds its adder `n` times; `PairedOps` runs `n` rounds of
(sub-cycle then `I`) followed by one trailing sub-cycle. -/
def cycle : Op → List Nat
  | .inc a n _ => List.replicate n a
  | .paired _ S I n _ => (List.replicate n (cycle S ++ [I])).flatten ++ cycle S

/-- Addends remaining until the current cycle completes, as a function of
the stored counters and flags. -/
def rem : Op → List Nat
  | .inc a n c => List.replicate (n - c) a
  | .paired onS S I n c =>
      if c < n then
        (if onS then rem S else []) ++ [I] ++
          (List.replicate (n - (c + 1)) (cycle S ++ [I])).flatten ++ cycle S
      else rem S

/-- States of the operation tree reachable from a fresh state with all
repeat counts positive: counters stay below the repeat count except in
the trailing-sub-cycle phase of `PairedOps`; when the `_on_S` flag is
cleared the sub-operation has just completed (and is in its fresh state).
-/
inductive Good : Op → Prop where
  | inc : ∀ a n c, c < n → Good (.inc a n c)
  | pairedS : ∀ S I n c, c < n → Good S → Good (.paired true S I n c)
  | pairedI : ∀ S I n c, c < n → Good S → reset S = S →
      Good (.paired false S I n c)
  | pairedF : ∀ S I n, 1 ≤ n → Good S → Good (.paired true S I n n)

/-- All addends stored in the operation tree are positive. -/
def posOp : Op → Prop
  | .inc a _ _ => 0 < a
  | .paired _ S I _ _ => posOp S ∧ 0 < I

/-- Run `j` consecutive `step` calls, recording after each call the
register value and the returned flag (`true` = more work).  `none` if any
call takes the overflow exit. -/
def runTrace : Nat → Op → Nat → Option (List (Nat × Bool) × Op × Nat)
  | 0, op, p => some ([], op, p)
  | j + 1, op, p =>
      match step op p with
      | none => none
      | some (op', p', b) =>
          match runTrace j op' p' with
          | none => none
          | some (tr, opF, pF) => some ((p', b) :: tr, opF, pF)

/-- The trace expected from applying the given addends starting at `p`:
running values, flagged `true` except for the last step. -/
def mkTrace : Nat → List Nat → List (Nat × Bool)
  | _, [] => []
  | p, [a] => [(p + a, false)]
  | p, a :: b :: rest => (p + a, true) :: mkTrace (p + a) (b :: rest)

/-- Running values obtained by adding the given addends to `acc` in turn.
-/
def psums : Nat → List Nat → List Nat
  | _, [] => []
  | acc, a :: rest => (acc + a) :: psums (acc + a) rest

theorem reset_reset (op : Op) : reset (reset op) = reset op := by
  induction op with
  | inc a n c => rfl
  | paired onS S I n c ih => simp [reset, ih]

theorem cycle_reset (op : Op) : cycle (reset op) = cycle op := by
  induction op with
  | inc a n c => rfl
  | paired onS S I n c ih => simp [reset, cycle, ih]

theorem rem_reset (op : Op) : rem (reset op) = cycle op := by
  induction op with
  | inc a n c => rfl
  | paired onS S I n c ih =>
    rcases Nat.eq_zero_or_pos n with hn | hn
    · subst hn
      simp [reset, rem, cycle, ih, cycle_reset]
    · have hrep : List.replicate n (cycle S ++ [I]) =
          (cycle S ++ [I]) :: List.replicate (n - 1) (cycle S ++ [I]) := by
        conv_lhs => rw [show n = (n - 1) + 1 by omega]
        simp [List.replicate_succ]
      simp [reset, rem, cycle, ih, cycle_reset, hn, hrep]

theorem Good.reset_good {op : Op} (h : Good op) : Good (reset op) := by
  induction h with
  | inc a n c hc => exact Good.inc a n 0 (by omega)
  | pairedS S I n c hc _ ih => exact Good.pairedS _ I n 0 (by omega) ih
  | pairedI S I n c hc _ _ ih => exact Good.pairedS _ I n 0 (by omega) ih
  | pairedF S I n hn _ ih => exact Good.pairedS _ I n 0 (by omega) ih

theorem cycle_ne_nil {op : Op} (h : Good op) : cycle op ≠ [] := by
  induction h with
  | inc a n c hc => simp [cycle]; omega
  | pairedS S I n c _ _ ih => simp [cycle]; exact fun _ => ih
  | pairedI S I n c _ _ _ ih => simp [cycle]; exact fun _ => ih
  | pairedF S I n _ _ ih => simp [cycle]; exact fun _ => ih

theorem rem_ne_nil {op : Op} (h : Good op) : rem op ≠ [] := by
  induction h with
  | inc a n c hc =>
    simp [rem]
    omega
  | pairedS S I n c hc _ ih => simp [rem, hc]
  | pairedI S I n c hc _ _ ih => simp [rem, hc]
  | pairedF S I n hn _ ih => simpa [rem] using ih

theorem cycle_eq_of_reset_eq {S T : Op} (h : reset S = reset T) :
    cycle S = cycle T := by
  rw [← cycle_reset S, ← cycle_reset T, h]

/-- On a reachable state whose next pending addition would exceed the
64-bit range, `step` takes the overflow exit. -/
theorem step_overflow {op : Op} (h : Good op) :
    ∀ {a : Nat} {rest : List Nat} {p : Nat}, rem op = a :: rest →
      U64MAX - a < p → step op p = none := by
  induction h with
  | inc a' n c hc =>
    intro a rest p hrem hp
    have hnc : n - c = (n - c - 1) + 1 := by omega
    rw [rem, hnc, List.replicate_succ] at hrem
    obtain ⟨rfl, -⟩ : a' = a ∧ List.replicate (n - c - 1) a' = rest := by
      injection hrem with h1 h2; exact ⟨h1, h2⟩
    simp [step, hp]
  | pairedS S I n c hc hS ihS =>
    intro a rest p hrem hp
    obtain ⟨aS, restS, hremS⟩ := List.exists_cons_of_ne_nil (rem_ne_nil hS)
    rw [rem, if_pos hc, if_pos rfl, hremS] at hrem
    simp only [List.cons_append] at hrem
    obtain ⟨rfl, -⟩ : aS = a ∧ _ = rest := by
      injection hrem with h1 h2; exact ⟨h1, h2⟩
    simp [step, hc, ihS hremS hp]
  | pairedI S I n c hc hS hres =>
    intro a rest p hrem hp
    rw [rem, if_pos hc] at hrem
    simp only [if_neg (Bool.false_ne_true), List.nil_append,
      List.cons_append] at hrem
    obtain ⟨rfl, -⟩ : I = a ∧ _ = rest := by
      injection hrem with h1 h2; exact ⟨h1, h2⟩
    simp [step, hc, hp]
  | pairedF S I n hn hS ihS =>
    intro a rest p hrem hp
    rw [rem, if_neg (lt_irrefl n)] at hrem
    simp [step, ihS hrem hp]

/-- Single-step simulation: on a reachable state with pending addends
`a :: rest` and no overflow, `step` adds exactly `a`, reports completion
exactly when `a` was the last pending addend, and on completion resets to
the fresh state (whose pending addends are the full cycle again). -/
theorem step_spec {op : Op} (h : Good op) :
    ∀ {a : Nat} {rest : List Nat} {p : Nat}, rem op = a :: rest →
      p ≤ U64MAX - a →
      ∃ op', step op p = some (op', p + a, !rest.isEmpty) ∧ Good op' ∧
        rem op' = (if rest.isEmpty then cycle op else rest) ∧
        reset op' = reset op ∧ (rest.isEmpty = true → op' = reset op) := by
  induction h with
  | inc a' n c hc =>
    intro a rest p hrem hp
    have hnc : n - c = (n - c - 1) + 1 := by omega
    rw [rem, hnc, List.replicate_succ] at hrem
    obtain ⟨rfl, hrest⟩ : a' = a ∧ List.replicate (n - c - 1) a' = rest := by
      injection hrem with h1 h2; exact ⟨h1, h2⟩
    have hguard : ¬ (U64MAX - a' < p) := not_lt.mpr hp
    by_cases hcn : c + 1 = n
    · have hrest0 : rest = [] := by
        rw [← hrest]
        simp
        omega
      refine ⟨.inc a' n 0, ?_, Good.inc a' n 0 (by omega), ?_, rfl, ?_⟩
      · simp [step, hguard, hcn, hrest0]
      · simp [hrest0, rem, cycle]
      · intro _; rfl
    · have hrest1 : rest ≠ [] := by
        rw [← hrest]
        simp
        omega
      refine ⟨.inc a' n (c + 1), ?_, Good.inc a' n (c + 1) (by omega), ?_,
        rfl, ?_⟩
      · simp [step, hguard, hcn, List.isEmpty_iff, hrest1]
      · rw [rem, show n - (c + 1) = n - c - 1 by omega, hrest,
          if_neg (by simp [List.isEmpty_iff, hrest1])]
      · simp [List.isEmpty_iff, hrest1]
  | pairedS S I n c hc hS ihS =>
    intro a rest p hrem hp
    obtain ⟨aS, restS, hremS⟩ := List.exists_cons_of_ne_nil (rem_ne_nil hS)
    rw [rem, if_pos hc, if_pos rfl, hremS] at hrem
    simp only [List.cons_append] at hrem
    obtain ⟨rfl, hrest⟩ : aS = a ∧
        restS ++ [I] ++
            (List.replicate (n - (c + 1)) (cycle S ++ [I])).flatten ++
            cycle S = rest := by
      injection hrem with h1 h2
      constructor
      · exact h1
      · simpa using h2
    obtain ⟨S', hstep, hGood', hrem', hreset', hinit'⟩ := ihS hremS hp
    have hrestne : rest ≠ [] := by
      rw [← hrest]; simp [cycle_ne_nil hS]
    have hcyc' : cycle S' = cycle S := cycle_eq_of_reset_eq hreset'
    cases restS with
    | nil =>
      simp only [List.isEmpty_nil, Bool.not_true] at hstep
      have hS'init : S' = reset S := hinit' rfl
      refine ⟨.paired false S' I n c, ?_, ?_, ?_, ?_, ?_⟩
      · simp [step, hc, hstep, List.isEmpty_iff, hrestne]
      · exact Good.pairedI S' I n c hc hGood'
          (by rw [hS'init, reset_reset])
      · rw [rem, if_pos hc]
        simp [List.isEmpty_iff, hrestne, hcyc', ← hrest]
      · simp [reset, hreset']
      · simp [List.isEmpty_iff, hrestne]
    | cons b rs =>
      simp only [List.isEmpty_cons, Bool.not_false] at hstep
      have hremS' : rem S' = b :: rs := by simpa using hrem'
      refine ⟨.paired true S' I n c, ?_, Good.pairedS S' I n c hc hGood',
        ?_, ?_, ?_⟩
      · simp [step, hc, hstep, List.isEmpty_iff, hrestne]
      · rw [rem, if_pos hc]
        simp [List.isEmpty_iff, hrestne, hcyc', hremS', ← hrest]
      · simp [reset, hreset']
      · simp [List.isEmpty_iff, hrestne]
  | pairedI S I n c hc hS hres =>
    intro a rest p hrem hp
    rw [rem, if_pos hc] at hrem
    simp only [if_neg (Bool.false_ne_true), List.nil_append,
      List.cons_append] at hrem
    obtain ⟨rfl, hrest⟩ : I = a ∧
        (List.replicate (n - (c + 1)) (cycle S ++ [I])).flatten ++ cycle S
          = rest := by
      injection hrem with h1 h2
      constructor
      · exact h1
      · simpa using h2
    have hguard : ¬ (U64MAX - I < p) := not_lt.mpr hp
    have hrestne : rest ≠ [] := by
      rw [← hrest]; simp [cycle_ne_nil hS]
    by_cases hcn : c + 1 < n
    · refine ⟨.paired true S I n (c + 1), ?_,
        Good.pairedS S I n (c + 1) hcn hS, ?_, rfl, ?_⟩
      · simp [step, hc, hguard, List.isEmpty_iff, hrestne]
      · have hne : rest.isEmpty = false := by
          simp [List.isEmpty_iff, hrestne]
        rw [rem, if_pos hcn, if_pos rfl,
          show rem S = cycle S by rw [← hres, rem_reset, cycle_reset],
          hne, if_neg Bool.false_ne_true, ← hrest,
          show n - (c + 1) = (n - (c + 1 + 1)) + 1 by omega,
          List.replicate_succ]
        simp [List.append_assoc]
      · simp [List.isEmpty_iff, hrestne]
    · have hcn' : c + 1 = n := by omega
      refine ⟨.paired true S I n (c + 1), ?_, ?_, ?_, rfl, ?_⟩
      · simp [step, hc, hguard, List.isEmpty_iff, hrestne]
      · rw [hcn']; exact Good.pairedF S I n (by omega) hS
      · have hne : rest.isEmpty = false := by
          simp [List.isEmpty_iff, hrestne]
        rw [hcn', rem, if_neg (lt_irrefl n), hne, if_neg Bool.false_ne_true,
          show rem S = cycle S by rw [← hres, rem_reset, cycle_reset]]
        have hexp : n - (c + 1) = 0 := by omega
        rw [hexp] at hrest
        simpa using hrest
      · simp [List.isEmpty_iff, hrestne]
  | pairedF S I n hn hS ihS =>
    intro a rest p hrem hp
    rw [rem, if_neg (lt_irrefl n)] at hrem
    obtain ⟨S', hstep, hGood', hrem', hreset', hinit'⟩ := ihS hrem hp
    cases rest with
    | nil =>
      simp only [List.isEmpty_nil, Bool.not_true] at hstep
      have hS'init : S' = reset S := hinit' rfl
      refine ⟨.paired true S' I n 0, ?_, ?_, ?_, ?_, ?_⟩
      · simp [step, hstep]
      · exact Good.pairedS S' I n 0 (by omega) hGood'
      · have : Op.paired true S' I n 0 =
            reset (Op.paired true S I n n) := by
          simp [reset, hS'init, reset_reset]
        rw [this, rem_reset]
        simp
      · simp [reset, hreset']
      · intro _
        simp [reset, hS'init, reset_reset]
    | cons b rs =>
      simp only [List.isEmpty_cons, Bool.not_false] at hstep
      have hremS' : rem S' = b :: rs := by simpa using hrem'
      refine ⟨.paired true S' I n n, ?_, Good.pairedF S' I n hn hGood',
        ?_, ?_, ?_⟩
      · simp [step, hstep]
      · rw [rem, if_neg (lt_irrefl n)]
        simp [hremS']
      · simp [reset, hreset']
      · simp

/-- Multi-step simulation: from a reachable state with pending addends
`l` and no overflow along the way, running `l.length` steps produces the
running sums of `l` (all flagged incomplete except the last step, flagged
complete) and ends in the fresh state. -/
theorem runTrace_rem :
    ∀ (l : List Nat) (op : Op) (p : Nat), Good op → rem op = l →
      p + l.sum ≤ U64MAX →
      runTrace l.length op p = some (mkTrace p l, reset op, p + l.sum) := by
  intro l
  induction l with
  | nil =>
    intro op p h hrem _
    exact absurd hrem (rem_ne_nil h)
  | cons a rest ih =>
    intro op p h hrem hov
    have hp : p ≤ U64MAX - a := by
      simp only [List.sum_cons] at hov
      omega
    obtain ⟨op', hstep, hGood', hrem', hreset', hinit'⟩ := step_spec h hrem hp
    cases rest with
    | nil =>
      have hop' : op' = reset op := hinit' rfl
      simp [runTrace, hstep, mkTrace, hop', List.sum_cons]
    | cons b rs =>
      have hrem2 : rem op' = b :: rs := by simpa using hrem'
      have hov2 : (p + a) + (b :: rs).sum ≤ U64MAX := by
        simp only [List.sum_cons] at hov ⊢
        omega
      have hrun := ih op' (p + a) hGood' hrem2 hov2
      simp only [List.length_cons, runTrace, hstep, List.isEmpty_cons,
        Bool.not_false]
      simp only [List.length_cons, runTrace] at hrun
      rw [hrun]
      simp [hreset', List.sum_cons, mkTrace, Nat.add_assoc]

/-- One full cycle of a fresh reachable operation. -/
theorem runTrace_cycle {op : Op} (h : Good op) (hres : reset op = op)
    (p : Nat) (hov : p + (cycle op).sum ≤ U64MAX) :
    runTrace (cycle op).length op p =
      some (mkTrace p (cycle op), op, p + (cycle op).sum) := by
  have hrem := rem_reset op
  rw [hres] at hrem
  have h2 := runTrace_rem (cycle op) op p h hrem hov
  rwa [hres] at h2

theorem mkTrace_map_fst (l : List Nat) :
    ∀ p, (mkTrace p l).map Prod.fst = psums p l := by
  induction l with
  | nil => intro p; rfl
  | cons a rest ih =>
    intro p
    cases rest with
    | nil => rfl
    | cons b rs => simp [mkTrace, psums, ih]

theorem mkTrace_map_snd (l : List Nat) :
    ∀ p, l ≠ [] →
      (mkTrace p l).map Prod.snd =
        List.replicate (l.length - 1) true ++ [false] := by
  induction l with
  | nil =>
    intro p h
    exact absurd rfl h
  | cons a rest ih =>
    intro p _
    cases rest with
    | nil => rfl
    | cons b rs =>
      simp only [mkTrace, List.map_cons, ih (p + a) (by simp)]
      simp [List.replicate_succ]

theorem psums_replicate :
    ∀ (n : Nat) (p a : Nat), psums p (List.replicate n a) =
      (List.range n).map fun i => p + (i + 1) * a := by
  intro n
  induction n with
  | zero => intro p a; rfl
  | succ m ih =>
    intro p a
    rw [List.replicate_succ, psums, ih, List.range_succ_eq_map]
    simp only [List.map_cons, List.map_map]
    congr 1
    · simp
    · apply List.map_congr_left
      intro i _
      simp [Function.comp, Nat.succ_eq_add_one]
      ring

theorem cycle_paired_length (onS : Bool) (S : Op) (I n c : Nat) :
    (cycle (Op.paired onS S I n c)).length =
      n * ((cycle S).length + 1) + (cycle S).length := by
  simp [cycle, List.length_flatten, List.map_replicate, List.sum_replicate,
    smul_eq_mul, Nat.mul_comm]

/-! ## Claims C4, C7, C8, C9 -/

/-- C4 (counterexample): the claim says the length-2 generator is
`Increment(repeatCount = N-3, adder = N+1)`.  At `N = 3` the code builds
repeat count `q = N - 2 = 1`, not `N - 3 = 0`. -/
theorem buildSeq_two_claim_false : buildSeq 3 2 ≠ Op.inc 4 0 0 := by decide

/-- C4 (amended): for every base `N > 2` the generator built for digit
length 2 is a single `Increment` with adder `N + 1` and repeat count
`N - 2` (the code's `q = m - 1 = N - 2`), not `N - 3`: the register is
seeded to the pre-palindrome `11`, so reaching `mm` takes `N - 2`
additions of `11`. -/
theorem buildSeq_two (N : Nat) (hN : 2 < N) :
    buildSeq N 2 = Op.inc (N + 1) (N - 2) 0 := by
  simp [buildSeq, Nat.sub_sub]

/-- C4 witness at `N = 3`. -/
theorem buildSeq_two_witness : buildSeq 3 2 = Op.inc 4 1 0 :=
  buildSeq_two 3 (by decide)

/-- C8: a fresh `Increment` with repeat count `n ≥ 1` and adder `a`,
absent overflow, adds exactly `a` on each of `n` consecutive step calls
(values `p + a, p + 2a, …, p + na`), reports incomplete on the first
`n - 1` calls and complete on the `n`-th, and ends in the fresh state
again, so an `(n+1)`-th call behaves exactly like the first call of a new
cycle. -/
theorem increment_contract (a n p : Nat) (hn : 1 ≤ n)
    (hov : p + n * a ≤ U64MAX) :
    runTrace n (Op.inc a n 0) p =
      some (mkTrace p (List.replicate n a), Op.inc a n 0, p + n * a) ∧
    (mkTrace p (List.replicate n a)).map Prod.fst =
      (List.range n).map (fun i => p + (i + 1) * a) ∧
    (mkTrace p (List.replicate n a)).map Prod.snd =
      List.replicate (n - 1) true ++ [false] := by
  have hGood : Good (Op.inc a n 0) := Good.inc a n 0 (by omega)
  have hsum : (List.replicate n a).sum = n * a := by
    simp [List.sum_replicate, smul_eq_mul]
  have hcyc : cycle (Op.inc a n 0) = List.replicate n a := rfl
  have hne : List.replicate n a ≠ [] := by
    intro hc
    have := congrArg List.length hc
    simp at this
    omega
  refine ⟨?_, ?_, ?_⟩
  · have h := runTrace_cycle hGood rfl p (by rw [hcyc, hsum]; exact hov)
    rw [hcyc, List.length_replicate, hsum] at h
    exact h
  · rw [mkTrace_map_fst, psums_replicate]
  · rw [mkTrace_map_snd _ _ hne, List.length_replicate]

/-- C8 witness. -/
theorem increment_contract_witness :
    runTrace 2 (Op.inc 5 2 0) 10 =
      some (mkTrace 10 (List.replicate 2 5), Op.inc 5 2 0, 10 + 2 * 5) :=
  (increment_contract 5 2 10 (by decide) (by decide)).1

/-- C7: a fresh `PairedOps` with repeat count `n ≥ 1` over a fresh
sub-operation that completes one cycle in exactly `c` step calls takes
exactly `n * (c + 1) + c` step calls to report complete: the first
`n * (c + 1) + c - 1` calls report incomplete, the last reports complete,
and the state is reset to fresh. -/
theorem pairedOps_contract (S : Op) (I n c p : Nat) (hn : 1 ≤ n)
    (hS : Good S) (hfresh : reset S = S) (hc : c = (cycle S).length)
    (hov : p + (cycle (Op.paired true S I n 0)).sum ≤ U64MAX) :
    runTrace (n * (c + 1) + c) (Op.paired true S I n 0) p =
      some (mkTrace p (cycle (Op.paired true S I n 0)),
        Op.paired true S I n 0,
        p + (cycle (Op.paired true S I n 0)).sum) ∧
    (mkTrace p (cycle (Op.paired true S I n 0))).map Prod.snd =
      List.replicate (n * (c + 1) + c - 1) true ++ [false] := by
  have hGood : Good (Op.paired true S I n 0) :=
    Good.pairedS S I n 0 (by omega) hS
  have hres : reset (Op.paired true S I n 0) = Op.paired true S I n 0 := by
    simp [reset, hfresh]
  have hlen : (cycle (Op.paired true S I n 0)).length = n * (c + 1) + c := by
    rw [cycle_paired_length, hc]
  constructor
  · have h := runTrace_cycle hGood hres p hov
    rwa [hlen] at h
  · rw [mkTrace_map_snd _ _ (cycle_ne_nil hGood), hlen]

/-- C7 witness: sub-operation `Increment(2, 1)` has cycle length `c = 2`;
with `n = 1` the paired operation completes in `1 * 3 + 2 = 5` steps. -/
theorem pairedOps_contract_witness :
    runTrace (1 * (2 + 1) + 2) (Op.paired true (Op.inc 1 2 0) 7 1 0) 0 =
      some (mkTrace 0 (cycle (Op.paired true (Op.inc 1 2 0) 7 1 0)),
        Op.paired true (Op.inc 1 2 0) 7 1 0,
        0 + (cycle (Op.paired true (Op.inc 1 2 0) 7 1 0)).sum) :=
  (pairedOps_contract (Op.inc 1 2 0) 7 1 2 0 (by decide)
    (Good.inc 1 2 0 (by decide)) rfl (by decide) (by decide)).1

/-- C9: every step call of every operation (`Increment`, `PairedOps`, and
the `Generator` roll-over) checks the pending addition against the 64-bit
maximum before touching the register: it takes the fatal diagnostic-exit
path (modelled by `none`) exactly when the addition would exceed
`U64MAX`, and otherwise performs the addition, whose result never exceeds
`U64MAX`, i.e. never wraps. -/
theorem overflow_policy :
    (∀ (op : Op) (a : Nat) (rest : List Nat) (p : Nat), Good op →
        rem op = a :: rest → a ≤ U64MAX →
        (U64MAX - a < p → step op p = none) ∧
        (p ≤ U64MAX - a →
          ∃ op', step op p = some (op', p + a, !rest.isEmpty) ∧
            p + a ≤ U64MAX)) ∧
    (∀ (g : GenState) (p : Nat), g.done = true →
        (U64MAX - 2 < p → genStep g p = none) ∧
        (p ≤ U64MAX - 2 →
          genStep g p = some (⟨false, g.seq⟩, p + 2, false) ∧
            p + 2 ≤ U64MAX)) := by
  have h2 : (2 : Nat) ≤ U64MAX := by decide
  constructor
  · intro op a rest p hGood hrem ha
    constructor
    · intro hp
      exact step_overflow hGood hrem hp
    · intro hp
      obtain ⟨op', hstep, -, -, -, -⟩ := step_spec hGood hrem hp
      exact ⟨op', hstep, by omega⟩
  · intro g p hdone
    constructor
    · intro hp
      simp [genStep, hdone, hp]
    · intro hp
      refine ⟨?_, by omega⟩
      simp [genStep, hdone]
      omega

/-- C9 witness: an `Increment` whose pending addition would exceed the
64-bit range exits, and a completed generator's roll-over step adds 2. -/
theorem overflow_policy_witness :
    step (Op.inc 5 2 0) (U64MAX - 4) = none ∧
    genStep ⟨true, Op.inc 1 1 0⟩ 10 = some (⟨false, Op.inc 1 1 0⟩, 12, false) := by
  constructor
  · exact (overflow_policy.1 (Op.inc 5 2 0) 5 [5] (U64MAX - 4)
      (Good.inc 5 2 0 (by decide)) rfl (by decide)).1 (by decide)
  · exact ((overflow_policy.2 ⟨true, Op.inc 1 1 0⟩ 10 rfl).2 (by decide)).1

/-! ## List-level lemmas for the palindrome enumeration argument -/

theorem psums_append (l1 : List Nat) :
    ∀ (l2 : List Nat) (acc : Nat),
      psums acc (l1 ++ l2) = psums acc l1 ++ psums (acc + l1.sum) l2 := by
  induction l1 with
  | nil => intro l2 acc; simp [psums]
  | cons a t ih =>
    intro l2 acc
    simp only [List.cons_append, psums, List.sum_cons, List.append_eq]
    rw [ih, Nat.add_assoc]

theorem psums_add (l : List Nat) :
    ∀ (a b : Nat), psums (a + b) l = (psums b l).map (a + ·) := by
  induction l with
  | nil => intro a b; rfl
  | cons c t ih =>
    intro a b
    simp only [psums, List.map_cons]
    congr 1
    · omega
    · rw [show a + b + c = a + (b + c) by ring, ih]

theorem psums_shift (l : List Nat) (acc : Nat) :
    psums acc l = (psums 0 l).map (acc + ·) := by
  have h := psums_add l acc 0
  simpa using h

theorem sum_flatten_replicate (n : Nat) (blk : List Nat) :
    ((List.replicate n blk).flatten).sum = n * blk.sum := by
  induction n with
  | zero => simp
  | succ m ih => simp [List.replicate_succ, ih, Nat.succ_mul, Nat.add_comm]

/-- `valBlocks W V n`: the list `V ++ (W + V) ++ (2W + V) ++ … ++ (nW + V)`
(`n + 1` translated copies of `V`). -/
def valBlocks (W : Nat) (V : List Nat) : Nat → List Nat
  | 0 => V
  | n + 1 => V ++ (valBlocks W V n).map (W + ·)

theorem mem_valBlocks (W : Nat) (V : List Nat) :
    ∀ (n : Nat) (v : Nat),
      v ∈ valBlocks W V n ↔ ∃ d, d ≤ n ∧ ∃ u ∈ V, v = d * W + u := by
  intro n
  induction n with
  | zero =>
    intro v
    constructor
    · intro hv
      exact ⟨0, le_refl 0, v, hv, by simp⟩
    · rintro ⟨d, hd, u, hu, rfl⟩
      interval_cases d
      simpa using hu
  | succ m ih =>
    intro v
    constructor
    · intro hv
      rcases List.mem_append.mp hv with h | h
      · exact ⟨0, by omega, v, h, by simp⟩
      · obtain ⟨u2, hu2, rfl⟩ := List.mem_map.mp h
        obtain ⟨d, hd, u, hu, rfl⟩ := (ih u2).mp hu2
        exact ⟨d + 1, by omega, u, hu, by ring⟩
    · rintro ⟨d, hd, u, hu, rfl⟩
      cases d with
      | zero =>
        apply List.mem_append.mpr
        left
        simpa using hu
      | succ d2 =>
        apply List.mem_append.mpr
        right
        apply List.mem_map.mpr
        refine ⟨d2 * W + u, (ih _).mpr ⟨d2, by omega, u, hu, rfl⟩, by ring⟩

theorem pairwise_valBlocks (W : Nat) (V : List Nat) (B : Nat)
    (hV : V.Pairwise (· < ·)) (hB : ∀ v ∈ V, v ≤ B) (hBW : B < W) :
    ∀ n : Nat, (valBlocks W V n).Pairwise (· < ·) ∧
      (∀ v ∈ valBlocks W V n, v ≤ n * W + B) := by
  intro n
  induction n with
  | zero => exact ⟨hV, by simpa using hB⟩
  | succ m ih =>
    obtain ⟨ihp, ihb⟩ := ih
    constructor
    · apply List.pairwise_append.mpr
      refine ⟨hV, ?_, ?_⟩
      · exact List.pairwise_map.mpr (ihp.imp (by omega))
      · intro a ha b hb
        obtain ⟨u, hu, rfl⟩ := List.mem_map.mp hb
        have := hB a ha
        omega
    · intro v hv
      rcases List.mem_append.mp hv with h | h
      · have := hB v h
        calc v ≤ B := this
          _ ≤ (m + 1) * W + B := by omega
      · obtain ⟨u, hu, rfl⟩ := List.mem_map.mp h
        have := ihb u hu
        have : W + u ≤ W + (m * W + B) := by omega
        calc W + u ≤ W + (m * W + B) := this
          _ = (m + 1) * W + B := by ring

/-- Two strictly sorted lists with the same members are equal. -/
theorem sorted_eq_of_mem_iff :
    ∀ (l1 l2 : List Nat), l1.Pairwise (· < ·) → l2.Pairwise (· < ·) →
      (∀ x, x ∈ l1 ↔ x ∈ l2) → l1 = l2 := by
  intro l1
  induction l1 with
  | nil =>
    intro l2 _ _ hmem
    cases l2 with
    | nil => rfl
    | cons b t2 => exact absurd ((hmem b).mpr (by simp)) (by simp)
  | cons a t1 ih =>
    intro l2 h1 h2 hmem
    cases l2 with
    | nil => exact absurd ((hmem a).mp (by simp)) (by simp)
    | cons b t2 =>
      have hab : a = b := by
        have ha2 : a ∈ b :: t2 := (hmem a).mp (by simp)
        have hb1 : b ∈ a :: t1 := (hmem b).mpr (by simp)
        rcases List.mem_cons.mp ha2 with h | h
        · exact h
        · rcases List.mem_cons.mp hb1 with h' | h'
          · exact h'.symm
          · have hba : b < a := (List.pairwise_cons.mp h2).1 a h
            have hab' : a < b := (List.pairwise_cons.mp h1).1 b h'
            omega
      subst hab
      have htail : ∀ x, x ∈ t1 ↔ x ∈ t2 := by
        intro x
        constructor
        · intro hx
          have hxa : a < x := (List.pairwise_cons.mp h1).1 x hx
          rcases List.mem_cons.mp ((hmem x).mp (List.mem_cons_of_mem a hx))
            with h | h
          · omega
          · exact h
        · intro hx
          have hxa : a < x := (List.pairwise_cons.mp h2).1 x hx
          rcases List.mem_cons.mp ((hmem x).mpr (List.mem_cons_of_mem a hx))
            with h | h
          · omega
          · exact h
      rw [ih t2 (List.pairwise_cons.mp h1).2 (List.pairwise_cons.mp h2).2
        htail]

/-- The running values of `n` repetitions of block `X ++ [A]` followed by
a final `X` are the `n + 1` stacked translated copies of the running
values of `X`, each new copy offset by `X.sum + A`. -/
theorem psums_rep_blocks (X : List Nat) (A : Nat) :
    ∀ (n : Nat) (acc : Nat),
      acc :: psums acc ((List.replicate n (X ++ [A])).flatten ++ X) =
        (valBlocks (X.sum + A) (0 :: psums 0 X) n).map (acc + ·) := by
  intro n
  induction n with
  | zero =>
    intro acc
    simp only [List.replicate, List.flatten_nil, List.nil_append, valBlocks,
      List.map_cons, Nat.add_zero]
    rw [psums_shift]
  | succ m ih =>
    intro acc
    have hsplit :
        (List.replicate (m + 1) (X ++ [A])).flatten ++ X =
          (X ++ [A]) ++ ((List.replicate m (X ++ [A])).flatten ++ X) := by
      simp [List.replicate_succ, List.append_assoc]
    rw [hsplit, psums_append]
    have hsumXA : (X ++ [A]).sum = X.sum + A := by simp
    have hXA : psums acc (X ++ [A]) = psums acc X ++ [acc + X.sum + A] := by
      rw [psums_append]
      simp [psums]
    rw [hsumXA, hXA, List.append_assoc]
    have hmerge : [acc + X.sum + A] ++
        psums (acc + (X.sum + A))
          ((List.replicate m (X ++ [A])).flatten ++ X) =
        (valBlocks (X.sum + A) (0 :: psums 0 X) m).map
          ((acc + (X.sum + A)) + ·) := by
      rw [List.singleton_append,
        show acc + X.sum + A = acc + (X.sum + A) by ring]
      exact ih (acc + (X.sum + A))
    rw [hmerge, valBlocks]
    simp only [List.map_append, List.map_map]
    rw [← List.cons_append,
      show acc :: psums acc X = (0 :: psums 0 X).map (acc + ·) by
        rw [psums_shift X acc]; simp]
    congr 1
    apply List.map_congr_left
    intro u _
    simp only [Function.comp]
    ring

/-! ## The generator constructor chain -/

/-- The chain `S_j` built by the generator constructor: the innermost
`Increment(m, M0)` wrapped `j` times into `PairedOps(m, ·, A i)`. -/
def chainFrom (m : Nat) (S0 : Op) (A : Nat → Nat) : Nat → Op
  | 0 => S0
  | i + 1 => .paired true (chainFrom m S0 A i) (A i) m 0

theorem chainFrom_shift (m : Nat) (S0 : Op) (A : Nat → Nat) :
    ∀ j, chainFrom m S0 A (j + 1) =
      chainFrom m (.paired true S0 (A 0) m 0) (fun i => A (i + 1)) j := by
  intro j
  induction j with
  | zero => rfl
  | succ j ih =>
    show Op.paired true (chainFrom m S0 A (j + 1)) (A (j + 1)) m 0 =
      Op.paired true
        (chainFrom m (.paired true S0 (A 0) m 0) (fun i => A (i + 1)) j)
        (A (j + 1)) m 0
    rw [ih]

/-- The constructor loop `buildChain`, started with adder
`(N+1) * N^t` and run `j ≤ t` times, builds the chain whose `i`-th wrap
adds `(N+1) * N^(t-i)`, and leaves `I = (N+1) * N^(t-j)`. -/
theorem buildChain_chainFrom (m N : Nat) (hN : 0 < N) :
    ∀ (j t : Nat) (S0 : Op), j ≤ t →
      buildChain m N S0 ((N + 1) * N ^ t) j =
        (chainFrom m S0 (fun i => (N + 1) * N ^ (t - i)) j,
          (N + 1) * N ^ (t - j)) := by
  intro j
  induction j with
  | zero =>
    intro t S0 _
    simp [buildChain, chainFrom]
  | succ j ih =>
    intro t S0 hjt
    have hdiv : (N + 1) * N ^ t / N = (N + 1) * N ^ (t - 1) := by
      rw [show t = (t - 1) + 1 by omega, pow_succ, ← Nat.mul_assoc]
      simp [Nat.mul_div_cancel _ hN]
    rw [buildChain, hdiv, ih (t - 1) _ (by omega)]
    have hfun : (fun i => (N + 1) * N ^ (t - 1 - i)) =
        (fun i => (N + 1) * N ^ (t - (i + 1))) := by
      funext i
      congr 2
      omega
    rw [hfun, show (N + 1) * N ^ (t - 1 - j) = (N + 1) * N ^ (t - (j + 1)) by
      congr 2
      omega]
    congr 1
    rw [chainFrom_shift]
    simp

/-- Total addition of one cycle of the chain `S_i` (the value by which a
full cycle advances the register). -/
def Twt (m M0 : Nat) (A : Nat → Nat) : Nat → Nat
  | 0 => m * M0
  | i + 1 => Twt m M0 A i + m * (Twt m M0 A i + A i)

/-- The derived weights: `wt i` is the amount by which the enumerated
values step when the `i`-th kernel digit increments (with everything
below it rolling over from its maximum back to zero). -/
def wt (m M0 : Nat) (A : Nat → Nat) : Nat → Nat
  | 0 => M0
  | i + 1 => Twt m M0 A i + A i

/-- Sorted list of all weighted kernel values with digits `0..m` at
levels `0..i`. -/
def valList (m : Nat) (w : Nat → Nat) : Nat → List Nat
  | 0 => (List.range (m + 1)).map (fun d => d * w 0)
  | i + 1 => valBlocks (w (i + 1)) (valList m w i) m

/-- Weighted digit sum: `wsumAux w j [d_j, d_(j-1), …, d_0]`
(outermost digit first). -/
def wsumAux (w : Nat → Nat) : Nat → List Nat → Nat
  | _, [] => 0
  | j, d :: rest => d * w j + wsumAux w (j - 1) rest

theorem posOp_chainFrom (m M0 : Nat) (hM0 : 0 < M0) (A : Nat → Nat)
    (hA : ∀ j, 0 < A j) :
    ∀ i, posOp (chainFrom m (.inc M0 m 0) A i) := by
  intro i
  induction i with
  | zero => simpa [chainFrom, posOp] using hM0
  | succ i ih => exact ⟨ih, hA i⟩

/-- The chain `S_i` is reachable, fresh, advances by `Twt i` per cycle,
and its running values (with the starting value prepended) are exactly
`valList i`. -/
theorem chainFrom_facts (m M0 : Nat) (hm : 1 ≤ m) (A : Nat → Nat) :
    ∀ i, Good (chainFrom m (.inc M0 m 0) A i) ∧
      reset (chainFrom m (.inc M0 m 0) A i) = chainFrom m (.inc M0 m 0) A i ∧
      (cycle (chainFrom m (.inc M0 m 0) A i)).sum = Twt m M0 A i ∧
      0 :: psums 0 (cycle (chainFrom m (.inc M0 m 0) A i)) =
        valList m (wt m M0 A) i := by
  intro i
  induction i with
  | zero =>
    refine ⟨Good.inc M0 m 0 (by omega), rfl, ?_, ?_⟩
    · show (cycle (Op.inc M0 m 0)).sum = m * M0
      simp [cycle, List.sum_replicate, smul_eq_mul]
    · show 0 :: psums 0 (cycle (Op.inc M0 m 0)) = valList m (wt m M0 A) 0
      rw [show cycle (Op.inc M0 m 0) = List.replicate m M0 from rfl,
        psums_replicate, valList, List.range_succ_eq_map]
      simp only [List.map_cons, List.map_map, Nat.zero_mul, Nat.zero_add]
      rfl
  | succ i ih =>
    obtain ⟨ihG, ihR, ihS, ihV⟩ := ih
    constructor
    · exact Good.pairedS _ (A i) m 0 (by omega) ihG
    constructor
    · show reset (Op.paired true _ (A i) m 0) = _
      simp only [reset, ihR]
      rfl
    constructor
    · show (cycle (Op.paired true (chainFrom m (.inc M0 m 0) A i)
          (A i) m 0)).sum = _
      rw [show cycle (Op.paired true (chainFrom m (.inc M0 m 0) A i)
            (A i) m 0) =
          (List.replicate m (cycle (chainFrom m (.inc M0 m 0) A i) ++
            [A i])).flatten ++ cycle (chainFrom m (.inc M0 m 0) A i)
          from rfl]
      rw [List.sum_append, sum_flatten_replicate, List.sum_append, ihS]
      show m * (Twt m M0 A i + [A i].sum) + Twt m M0 A i = Twt m M0 A i + _
      simp [List.sum_cons]
      ring
    · show 0 :: psums 0 (cycle (Op.paired true (chainFrom m (.inc M0 m 0) A i)
          (A i) m 0)) = _
      rw [show cycle (Op.paired true (chainFrom m (.inc M0 m 0) A i)
            (A i) m 0) =
          (List.replicate m (cycle (chainFrom m (.inc M0 m 0) A i) ++
            [A i])).flatten ++ cycle (chainFrom m (.inc M0 m 0) A i)
          from rfl]
      have h := psums_rep_blocks (cycle (chainFrom m (.inc M0 m 0) A i))
        (A i) m 0
      simp only [Nat.zero_add] at h
      rw [h, ihV, ihS, valList]
      show (valBlocks (Twt m M0 A i + A i) _ m).map id = _
      rw [List.map_id, show Twt m M0 A i + A i = wt m M0 A (i + 1) from rfl]

theorem mem_valList (m : Nat) (w : Nat → Nat) :
    ∀ (i : Nat) (v : Nat), v ∈ valList m w i ↔
      ∃ ds : List Nat, ds.length = i + 1 ∧ (∀ d ∈ ds, d ≤ m) ∧
        v = wsumAux w i ds := by
  intro i
  induction i with
  | zero =>
    intro v
    rw [valList]
    constructor
    · intro hv
      obtain ⟨d, hd, rfl⟩ := List.mem_map.mp hv
      refine ⟨[d], rfl, ?_, ?_⟩
      · intro d' hd'
        have := List.mem_range.mp hd
        simp at hd'
        omega
      · simp [wsumAux]
    · rintro ⟨ds, hlen, hbound, rfl⟩
      match ds, hlen with
      | [d], _ =>
        apply List.mem_map.mpr
        refine ⟨d, List.mem_range.mpr ?_, ?_⟩
        · have := hbound d (by simp)
          omega
        · simp [wsumAux]
  | succ i ih =>
    intro v
    rw [valList, mem_valBlocks]
    constructor
    · rintro ⟨d, hd, u, hu, rfl⟩
      obtain ⟨ds, hlen, hbound, rfl⟩ := (ih u).mp hu
      refine ⟨d :: ds, by simp [hlen], ?_, ?_⟩
      · intro d' hd'
        rcases List.mem_cons.mp hd' with h | h
        · omega
        · exact hbound d' h
      · simp [wsumAux]
    · rintro ⟨ds, hlen, hbound, rfl⟩
      match ds, hlen with
      | d :: rest, hlen =>
        refine ⟨d, hbound d (by simp), wsumAux w i rest, ?_, ?_⟩
        · exact (ih _).mpr ⟨rest, by simpa using hlen,
            fun d' hd' => hbound d' (List.mem_cons_of_mem d hd'), rfl⟩
        · simp [wsumAux]

theorem pairwise_valList (m M0 : Nat) (A : Nat → Nat) (hM0 : 0 < M0)
    (hA : ∀ j, 0 < A j) :
    ∀ i, (valList m (wt m M0 A) i).Pairwise (· < ·) ∧
      (∀ v ∈ valList m (wt m M0 A) i, v ≤ Twt m M0 A i) := by
  intro i
  induction i with
  | zero =>
    constructor
    · rw [valList]
      apply List.pairwise_map.mpr
      apply List.Pairwise.imp ?_ (List.pairwise_lt_range (m + 1))
      intro a b hab
      show a * wt m M0 A 0 < b * wt m M0 A 0
      have h0 : (0 : Nat) < wt m M0 A 0 := hM0
      exact (Nat.mul_lt_mul_right h0).mpr hab
    · intro v hv
      rw [valList] at hv
      obtain ⟨d, hd, rfl⟩ := List.mem_map.mp hv
      have := List.mem_range.mp hd
      show d * wt m M0 A 0 ≤ Twt m M0 A 0
      have h0 : wt m M0 A 0 = M0 := rfl
      have hT : Twt m M0 A 0 = m * M0 := rfl
      rw [h0, hT]
      exact Nat.mul_le_mul_right M0 (by omega)
  | succ i ih =>
    obtain ⟨ihp, ihb⟩ := ih
    have hW : Twt m M0 A i < wt m M0 A (i + 1) := by
      show Twt m M0 A i < Twt m M0 A i + A i
      have := hA i
      omega
    obtain ⟨hp, hb⟩ := pairwise_valBlocks (wt m M0 A (i + 1))
      (valList m (wt m M0 A) i) (Twt m M0 A i) ihp ihb hW m
    refine ⟨hp, ?_⟩
    intro v hv
    have := hb v hv
    show v ≤ Twt m M0 A (i + 1)
    have hT : Twt m M0 A (i + 1) =
        Twt m M0 A i + m * (Twt m M0 A i + A i) := rfl
    have hw : wt m M0 A (i + 1) = Twt m M0 A i + A i := rfl
    rw [hT]
    rw [hw] at this
    omega

/-! ## Generator-level traces -/

/-- Run `j` consecutive `Generator::step` calls, recording after each
call the register value and the returned flag. -/
def genRunTrace : Nat → GenState → Nat →
    Option (List (Nat × Bool) × GenState × Nat)
  | 0, g, p => some ([], g, p)
  | j + 1, g, p =>
      match genStep g p with
      | none => none
      | some (g', p', b) =>
          match genRunTrace j g' p' with
          | none => none
          | some (tr, gF, pF) => some ((p', b) :: tr, gF, pF)

/-- A full generator pass over a reachable root operation with pending
addends `l`: `l.length` delegating steps (each flagged incomplete at the
generator level) followed by the roll-over step adding `2` (flagged
complete), i.e. the trace of the addends `l ++ [2]`. -/
theorem genRunTrace_rem :
    ∀ (l : List Nat) (op : Op) (p : Nat), Good op → rem op = l →
      p + l.sum + 2 ≤ U64MAX →
      genRunTrace (l.length + 1) ⟨false, op⟩ p =
        some (mkTrace p (l ++ [2]), ⟨false, reset op⟩, p + l.sum + 2) := by
  intro l
  induction l with
  | nil =>
    intro op p h hrem _
    exact absurd hrem (rem_ne_nil h)
  | cons a rest ih =>
    intro op p h hrem hov
    have hp : p ≤ U64MAX - a := by
      simp only [List.sum_cons] at hov
      omega
    obtain ⟨op', hstep, hGood', hrem', hreset', hinit'⟩ := step_spec h hrem hp
    cases rest with
    | nil =>
      have hop' : op' = reset op := hinit' rfl
      have h1 : genStep ⟨false, op⟩ p = some (⟨true, op'⟩, p + a, true) := by
        simp [genStep, hstep]
      have hle : ¬ (U64MAX - 2 < p + a) := by
        simp only [List.sum_cons, List.sum_nil] at hov
        omega
      have h2 : genStep ⟨true, op'⟩ (p + a) =
          some (⟨false, op'⟩, p + a + 2, false) := by
        simp [genStep, hle]
      rw [hop'] at h1 h2
      simp [genRunTrace, h1, h2, mkTrace, List.sum_cons]
    | cons b rs =>
      have hrem2 : rem op' = b :: rs := by simpa using hrem'
      have hov2 : (p + a) + (b :: rs).sum + 2 ≤ U64MAX := by
        simp only [List.sum_cons] at hov ⊢
        omega
      have hrun := ih op' (p + a) hGood' hrem2 hov2
      have h1 : genStep ⟨false, op⟩ p = some (⟨false, op'⟩, p + a, true) := by
        simp [genStep, hstep]
      simp only [List.length_cons, genRunTrace, h1]
      simp only [List.length_cons, genRunTrace] at hrun
      rw [hrun]
      simp only [hreset', List.sum_cons, List.cons_append, mkTrace]
      simp [Nat.add_assoc]

/-! ## The generator tree for `L ≥ 3` -/

/-- `k` with `L = 2k+1` (odd) or `L = 2k+2` (even). -/
def kv (L : Nat) : Nat := (L + 1) / 2 - 1

/-- The innermost adder `M` of the generator constructor. -/
def M0v (N L : Nat) : Nat :=
  (if L % 2 = 1 then N else N * (N + 1)) * N ^ (kv L - 1)

/-- The `PairedOps` adders of the generator constructor:
`A i = 11` followed by `k - 1 - i` zeros (in base `N`). -/
def Av (N L : Nat) : Nat → Nat := fun i => (N + 1) * N ^ (kv L - 1 - i)

/-- For `L ≥ 3` the constructor builds
`PairedOps(q, S_(k-1), N + 1)` over the chain `S_(k-1)`. -/
theorem buildSeq_eq (N L : Nat) (hN : 1 ≤ N) (hL : 3 ≤ L) :
    buildSeq N L =
      .paired true
        (chainFrom (N - 1) (.inc (M0v N L) (N - 1) 0) (Av N L) (kv L - 1))
        ((N + 1) * N ^ (kv L - 1 - (kv L - 1))) (N - 1 - 1) 0 := by
  have h := buildChain_chainFrom (N - 1) N hN (kv L - 1) (kv L - 1)
    (.inc (M0v N L) (N - 1) 0) le_rfl
  unfold buildSeq
  rw [if_neg (show ¬ L = 2 by omega)]
  rw [show (L + 1) / 2 - 1 = kv L from rfl]
  rw [show (if L % 2 = 1 then N else N * (N + 1)) * N ^ (kv L - 1) =
    M0v N L from rfl]
  simp only [h]
  rfl

/-- The register value left by the previous length's generator: `N + 1`
for `L = 2` (the seed), the smallest `L`-digit palindrome `1 0…0 1`
otherwise. -/
def p0v (N L : Nat) : Nat := if L = 2 then N + 1 else N ^ (L - 1) + 1

theorem buildSeq_facts (N L : Nat) (hN : 3 ≤ N) (hL : 3 ≤ L) :
    Good (buildSeq N L) ∧ reset (buildSeq N L) = buildSeq N L ∧
    posOp (buildSeq N L) ∧
    (∀ acc : Nat, acc :: psums acc (cycle (buildSeq N L)) =
      (valBlocks (wt (N - 1) (M0v N L) (Av N L) (kv L))
        (valList (N - 1) (wt (N - 1) (M0v N L) (Av N L)) (kv L - 1))
        (N - 1 - 1)).map (acc + ·)) ∧
    (cycle (buildSeq N L)).sum + wt (N - 1) (M0v N L) (Av N L) (kv L) =
      Twt (N - 1) (M0v N L) (Av N L) (kv L) := by
  have hk : 1 ≤ kv L := by
    unfold kv
    omega
  have hm : 1 ≤ N - 1 := by omega
  have hN0 : 0 < N := by omega
  obtain ⟨hG, hR, hS, hV⟩ :=
    chainFrom_facts (N - 1) (M0v N L) hm (Av N L) (kv L - 1)
  have heq := buildSeq_eq N L (by omega) hL
  have hwk : wt (N - 1) (M0v N L) (Av N L) (kv L) =
      Twt (N - 1) (M0v N L) (Av N L) (kv L - 1) + Av N L (kv L - 1) := by
    rw [show kv L = (kv L - 1) + 1 by omega]
    rfl
  have hcyc : cycle (buildSeq N L) =
      (List.replicate (N - 1 - 1)
        (cycle (chainFrom (N - 1) (.inc (M0v N L) (N - 1) 0) (Av N L)
          (kv L - 1)) ++ [(N + 1) * N ^ (kv L - 1 - (kv L - 1))])).flatten ++
      cycle (chainFrom (N - 1) (.inc (M0v N L) (N - 1) 0) (Av N L)
        (kv L - 1)) := by
    rw [heq]
    rfl
  have hI' : (N + 1) * N ^ (kv L - 1 - (kv L - 1)) = Av N L (kv L - 1) :=
    rfl
  refine ⟨?_, ?_, ?_, ?_, ?_⟩
  · rw [heq]
    exact Good.pairedS _ _ _ 0 (by omega) hG
  · rw [heq]
    show reset (Op.paired true _ _ _ 0) = _
    simp only [reset, hR]
  · rw [heq]
    refine ⟨?_, ?_⟩
    · apply posOp_chainFrom
      · apply Nat.mul_pos
        · split
          · omega
          · exact Nat.mul_pos hN0 (by omega)
        · exact pow_pos hN0 _
      · intro j
        exact Nat.mul_pos (by omega) (pow_pos hN0 _)
    · exact Nat.mul_pos (by omega) (pow_pos hN0 _)
  · intro acc
    rw [hcyc]
    have h := psums_rep_blocks
      (cycle (chainFrom (N - 1) (.inc (M0v N L) (N - 1) 0) (Av N L)
        (kv L - 1)))
      ((N + 1) * N ^ (kv L - 1 - (kv L - 1))) (N - 1 - 1) acc
    rw [h, hS, hI', hV, ← hwk]
  · rw [hcyc, List.sum_append, sum_flatten_replicate, List.sum_append, hS,
      hI', hwk]
    show (N - 1 - 1) * (Twt (N - 1) (M0v N L) (Av N L) (kv L - 1) +
        [Av N L (kv L - 1)].sum) + Twt (N - 1) (M0v N L) (Av N L) (kv L - 1) +
        (Twt (N - 1) (M0v N L) (Av N L) (kv L - 1) + Av N L (kv L - 1)) = _
    rw [show Twt (N - 1) (M0v N L) (Av N L) (kv L) =
      Twt (N - 1) (M0v N L) (Av N L) (kv L - 1) +
        (N - 1) * (Twt (N - 1) (M0v N L) (Av N L) (kv L - 1) +
          Av N L (kv L - 1)) by
      rw [show kv L = (kv L - 1) + 1 by omega]
      rfl]
    simp only [List.sum_cons, List.sum_nil, Nat.add_zero]
    have hm2 : N - 1 - 1 + 1 = N - 1 := by omega
    nlinarith [hm2]

/-- `e` with `L - 1 = k + e`: the upper mirror offset (`e = k` for odd
`L`, `e = k + 1` for even `L`). -/
def ev (L : Nat) : Nat := L - 1 - kv L

/-- Closed forms: one full cycle of `S_i` advances the register by
`N^(e+i+1) - N^(k-i)` (stated additively), and the step weight of kernel
digit `j ≥ 1` is the place-value pair `N^(k-j) + N^(e+j)`. -/
theorem wt_closed (N L : Nat) (hN : 3 ≤ N) (hL : 3 ≤ L) :
    (∀ i, i ≤ kv L →
      Twt (N - 1) (M0v N L) (Av N L) i + N ^ (kv L - i) =
        N ^ (ev L + i + 1)) ∧
    (∀ j, 1 ≤ j → j ≤ kv L →
      wt (N - 1) (M0v N L) (Av N L) j =
        N ^ (kv L - j) + N ^ (ev L + j)) := by
  have hk : 1 ≤ kv L := by
    unfold kv
    omega
  have hsub : ∀ X : Nat, X + (N - 1) * X = N * X := by
    intro X
    have h : 1 + (N - 1) = N := by omega
    calc X + (N - 1) * X = (1 + (N - 1)) * X := by ring
      _ = N * X := by rw [h]
  have hsq : (N - 1) * (N + 1) + 1 = N * N := by
    obtain ⟨n1, rfl⟩ : ∃ n1, N = n1 + 1 := ⟨N - 1, by omega⟩
    simp [Nat.add_sub_cancel]
    ring
  have hTfact : ∀ i, i ≤ kv L →
      Twt (N - 1) (M0v N L) (Av N L) i + N ^ (kv L - i) =
        N ^ (ev L + i + 1) := by
    intro i
    induction i with
    | zero =>
      intro _
      show (N - 1) * M0v N L + N ^ (kv L - 0) = N ^ (ev L + 0 + 1)
      unfold M0v
      have hNk : N * N ^ (kv L - 1) = N ^ (kv L) := by
        rw [← pow_succ']
        congr 1
        omega
      rcases Nat.mod_two_eq_zero_or_one L with hpar | hpar
      · -- even L: e = k + 1
        have he : ev L + 1 = kv L + 2 := by
          unfold ev kv
          omega
        rw [if_neg (by omega), Nat.sub_zero, Nat.add_zero, he]
        calc (N - 1) * (N * (N + 1) * N ^ (kv L - 1)) + N ^ (kv L)
            = (N - 1) * ((N + 1) * (N * N ^ (kv L - 1))) + N ^ (kv L) := by
              ring
          _ = (N - 1) * ((N + 1) * N ^ (kv L)) + N ^ (kv L) := by rw [hNk]
          _ = ((N - 1) * (N + 1) + 1) * N ^ (kv L) := by ring
          _ = (N * N) * N ^ (kv L) := by rw [hsq]
          _ = N ^ (kv L + 2) := by ring
      · -- odd L: e = k
        have he : ev L + 1 = kv L + 1 := by
          unfold ev kv
          omega
        rw [if_pos hpar, Nat.sub_zero, Nat.add_zero, he]
        calc (N - 1) * (N * N ^ (kv L - 1)) + N ^ (kv L)
            = (N - 1) * N ^ (kv L) + N ^ (kv L) := by rw [hNk]
          _ = N ^ (kv L) + (N - 1) * N ^ (kv L) := by ring
          _ = N * N ^ (kv L) := hsub _
          _ = N ^ (kv L + 1) := by rw [pow_succ']
    | succ i ih =>
      intro hik
      have hik' : i ≤ kv L := by omega
      have hIH := ih hik'
      have hkiX : N ^ (kv L - i) = N * N ^ (kv L - 1 - i) := by
        rw [← pow_succ']
        congr 1
        omega
      have hkiX' : kv L - (i + 1) = kv L - 1 - i := by omega
      have hE : N ^ (ev L + (i + 1) + 1) = N * N ^ (ev L + i + 1) := by
        rw [← pow_succ']
        congr 1
      rw [hkiX] at hIH
      show Twt (N - 1) (M0v N L) (Av N L) i +
          (N - 1) * (Twt (N - 1) (M0v N L) (Av N L) i + Av N L i) +
          N ^ (kv L - (i + 1)) = _
      rw [hkiX', hE, show Av N L i = (N + 1) * N ^ (kv L - 1 - i) from rfl]
      calc Twt (N - 1) (M0v N L) (Av N L) i +
            (N - 1) * (Twt (N - 1) (M0v N L) (Av N L) i +
              (N + 1) * N ^ (kv L - 1 - i)) + N ^ (kv L - 1 - i)
          = (Twt (N - 1) (M0v N L) (Av N L) i +
              (N - 1) * Twt (N - 1) (M0v N L) (Av N L) i) +
            ((N - 1) * (N + 1) + 1) * N ^ (kv L - 1 - i) := by ring
        _ = N * Twt (N - 1) (M0v N L) (Av N L) i +
            (N * N) * N ^ (kv L - 1 - i) := by rw [hsub, hsq]
        _ = N * (Twt (N - 1) (M0v N L) (Av N L) i +
            N * N ^ (kv L - 1 - i)) := by ring
        _ = N * N ^ (ev L + i + 1) := by rw [hIH]
  refine ⟨hTfact, ?_⟩
  intro j hj1 hjk
  have hIH := hTfact (j - 1) (by omega)
  have hkiX : N ^ (kv L - (j - 1)) = N * N ^ (kv L - j) := by
    rw [← pow_succ']
    congr 1
    omega
  have hej : ev L + (j - 1) + 1 = ev L + j := by omega
  rw [hkiX, hej] at hIH
  have hwj : wt (N - 1) (M0v N L) (Av N L) j =
      Twt (N - 1) (M0v N L) (Av N L) (j - 1) + Av N L (j - 1) := by
    rw [show j = (j - 1) + 1 by omega]
    rfl
  rw [hwj, show Av N L (j - 1) = (N + 1) * N ^ (kv L - 1 - (j - 1)) from rfl,
    show kv L - 1 - (j - 1) = kv L - j by omega]
  calc Twt (N - 1) (M0v N L) (Av N L) (j - 1) +
        (N + 1) * N ^ (kv L - j)
      = (Twt (N - 1) (M0v N L) (Av N L) (j - 1) + N * N ^ (kv L - j)) +
        N ^ (kv L - j) := by ring
    _ = N ^ (ev L + j) + N ^ (kv L - j) := by rw [hIH]
    _ = N ^ (kv L - j) + N ^ (ev L + j) := by ring

/-! ## Palindromic digit lists -/

theorem mirror_even_reverse {α : Type} (xs : List α) :
    (xs ++ xs.reverse).reverse = xs ++ xs.reverse := by
  simp

theorem mirror_odd_reverse {α : Type} (xs : List α) (hxs : xs ≠ []) :
    (xs ++ xs.reverse.drop 1).reverse = xs ++ xs.reverse.drop 1 := by
  obtain ⟨z, zs, hz⟩ := List.exists_cons_of_ne_nil
    (show xs.reverse ≠ [] by simpa using hxs)
  have hxs2 : xs = zs.reverse ++ [z] := by
    have h := congrArg List.reverse hz
    simpa using h
  rw [hz, show (z :: zs).drop 1 = zs from rfl, hxs2]
  simp [List.reverse_append, List.append_assoc]

theorem pal_decomp_even {α : Type} (D : List α) (k : Nat)
    (hlen : D.length = 2 * k + 2) (hpal : D.reverse = D) :
    D = D.take (k + 1) ++ (D.take (k + 1)).reverse := by
  conv_lhs => rw [← List.take_append_drop (k + 1) D]
  congr 1
  rw [List.reverse_take, hpal, hlen, show 2 * k + 2 - (k + 1) = k + 1 by
    omega]

theorem pal_decomp_odd {α : Type} (D : List α) (k : Nat)
    (hlen : D.length = 2 * k + 1) (hpal : D.reverse = D) :
    D = D.take (k + 1) ++ (D.take (k + 1)).reverse.drop 1 := by
  conv_lhs => rw [← List.take_append_drop (k + 1) D]
  congr 1
  rw [List.reverse_take, hpal, hlen, show 2 * k + 1 - (k + 1) = k by omega,
    List.drop_drop]

/-- Weighted kernel sums written via `ofDigits`, even length: the
mirrored pair weights split into the low copy (the kernel read outward)
and the high copy (the kernel read inward, shifted past the centre). -/
theorem wsum_ofDigits_even (N k : Nat) (w : Nat → Nat)
    (hw : ∀ j, j ≤ k → w j = N ^ (k - j) + N ^ (k + 1 + j)) :
    ∀ i, i ≤ k → ∀ ds : List Nat, ds.length = i + 1 →
      wsumAux w i ds =
        N ^ (k - i) * Nat.ofDigits N ds +
          N ^ (k + 1) * Nat.ofDigits N ds.reverse := by
  intro i
  induction i with
  | zero =>
    intro _ ds hds
    match ds, hds with
    | [d], _ =>
      show d * w 0 + 0 = _
      rw [hw 0 (by omega)]
      simp [Nat.ofDigits_singleton]
      ring
  | succ i ih =>
    intro hik ds hds
    match ds, hds with
    | d :: rest, hds =>
      have hrest : rest.length = i + 1 := by simpa using hds
      have hIH := ih (by omega) rest hrest
      show d * w (i + 1) + wsumAux w i rest = _
      rw [hIH, hw (i + 1) hik,
        show (d :: rest).reverse = rest.reverse ++ [d] by simp,
        Nat.ofDigits_cons, Nat.ofDigits_append, Nat.ofDigits_singleton,
        show rest.reverse.length = i + 1 by simpa using hrest]
      have h1 : N ^ (k - i) = N ^ (k - (i + 1)) * N := by
        rw [← pow_succ]
        congr 1
        omega
      have h2 : N ^ (k + 1 + (i + 1)) = N ^ (k + 1) * N ^ (i + 1) := by
        rw [← pow_add]
      rw [h1, h2]
      ring

/-- Weighted kernel sums written via `ofDigits`, odd length: the middle
digit is counted once. -/
theorem wsum_ofDigits_odd (N k : Nat) (w : Nat → Nat)
    (hw0 : w 0 = N ^ k)
    (hw : ∀ j, 1 ≤ j → j ≤ k → w j = N ^ (k - j) + N ^ (k + j)) :
    ∀ i, i ≤ k → ∀ ds : List Nat, ds.length = i + 1 →
      wsumAux w i ds =
        N ^ (k - i) * Nat.ofDigits N ds +
          N ^ (k + 1) * Nat.ofDigits N (ds.reverse.drop 1) := by
  intro i
  induction i with
  | zero =>
    intro _ ds hds
    match ds, hds with
    | [d], _ =>
      show d * w 0 + 0 = _
      rw [hw0]
      simp [Nat.ofDigits_singleton]
      ring
  | succ i ih =>
    intro hik ds hds
    match ds, hds with
    | d :: rest, hds =>
      have hrest : rest.length = i + 1 := by simpa using hds
      have hrevlen : rest.reverse.length = i + 1 := by simpa using hrest
      have hIH := ih (by omega) rest hrest
      show d * w (i + 1) + wsumAux w i rest = _
      have hdrop : (d :: rest).reverse.drop 1 =
          rest.reverse.drop 1 ++ [d] := by
        rw [show (d :: rest).reverse = rest.reverse ++ [d] by simp,
          List.drop_append_of_le_length (by omega)]
      rw [hIH, hw (i + 1) (by omega) hik, hdrop, Nat.ofDigits_cons,
        Nat.ofDigits_append, Nat.ofDigits_singleton,
        show (rest.reverse.drop 1).length = i by
          rw [List.length_drop, hrevlen]
          omega]
      have h1 : N ^ (k - i) = N ^ (k - (i + 1)) * N := by
        rw [← pow_succ]
        congr 1
        omega
      have h2 : N ^ (k + (i + 1)) = N ^ (k + 1) * N ^ i := by
        rw [← pow_add]
        congr 1
        omega
      rw [h1, h2]
      ring

theorem head_congr {α : Type} {l l' : List α} (h : l = l') (hne : l ≠ [])
    (hne' : l' ≠ []) : l.head hne = l'.head hne' := by
  subst h
  rfl

/-- Even-length bridge: `v` is a mirror-weighted kernel sum with nonzero
leading digit iff the base-`N` representation of `v` is a palindrome of
length `2k + 2`. -/
theorem bridge_even (N k : Nat) (hN : 2 ≤ N) (w : Nat → Nat)
    (hw : ∀ j, j ≤ k → w j = N ^ (k - j) + N ^ (k + 1 + j)) (v : Nat) :
    (∃ d rest, rest.length = k ∧ 1 ≤ d ∧ d < N ∧ (∀ x ∈ rest, x < N) ∧
      v = wsumAux w k (d :: rest)) ↔
    ((Nat.digits N v).length = 2 * k + 2 ∧
      (Nat.digits N v).reverse = Nat.digits N v) := by
  constructor
  · rintro ⟨d, rest, hrl, hd1, hdN, hrN, rfl⟩
    have hds : (d :: rest).length = k + 1 := by simp [hrl]
    have hvD : wsumAux w k (d :: rest) =
        Nat.ofDigits N ((d :: rest) ++ (d :: rest).reverse) := by
      rw [Nat.ofDigits_append,
        wsum_ofDigits_even N k w hw k le_rfl (d :: rest) hds, hds]
      simp
    have hmemD : ∀ x ∈ (d :: rest) ++ (d :: rest).reverse, x < N := by
      intro x hx
      rcases List.mem_append.mp hx with h | h
      · rcases List.mem_cons.mp h with h | h
        · omega
        · exact hrN x h
      · rw [List.mem_reverse] at h
        rcases List.mem_cons.mp h with h | h
        · omega
        · exact hrN x h
    have hD : Nat.digits N
        (Nat.ofDigits N ((d :: rest) ++ (d :: rest).reverse)) =
        (d :: rest) ++ (d :: rest).reverse := by
      apply Nat.digits_ofDigits N (by omega) _ hmemD
      intro h
      rw [List.getLast_eq_head_reverse]
      rw [head_congr (mirror_even_reverse (d :: rest)) (by simp) (by simp)]
      show d ≠ 0
      omega
    constructor
    · rw [hvD, hD]
      simp [hrl]
      omega
    · rw [hvD, hD]
      exact mirror_even_reverse _
  · rintro ⟨hlen, hpal⟩
    have hv0 : v ≠ 0 := by
      intro h
      rw [h] at hlen
      simp at hlen
    have hdecomp := pal_decomp_even (Nat.digits N v) k hlen hpal
    have htl : (List.take (k + 1) (Nat.digits N v)).length = k + 1 := by
      rw [List.length_take, hlen]
      omega
    obtain ⟨d, rest, hdr⟩ := List.exists_cons_of_ne_nil
      (show List.take (k + 1) (Nat.digits N v) ≠ [] by
        intro hc
        rw [hc] at htl
        simp at htl)
    have hrl : rest.length = k := by
      have h2 := htl
      rw [hdr] at h2
      simpa using h2
    have hDform : Nat.digits N v = (d :: rest) ++ (d :: rest).reverse := by
      rw [← hdr]
      exact hdecomp
    have hgl := Nat.getLast_digit_ne_zero N hv0
    have hne2 : Nat.digits N v ≠ [] := Nat.digits_ne_nil_iff_ne_zero.mpr hv0
    have hd1 : 1 ≤ d := by
      rw [List.getLast_eq_head_reverse] at hgl
      rw [head_congr hpal (by simpa using hne2) hne2,
        head_congr hDform hne2 (by simp)] at hgl
      have hd : ((d :: rest) ++ (d :: rest).reverse).head (by simp) = d :=
        rfl
      rw [hd] at hgl
      omega
    have hdig_lt : ∀ x ∈ Nat.digits N v, x < N := fun x hx =>
      Nat.digits_lt_base (by omega) hx
    have hdN : d < N := hdig_lt d (by rw [hDform]; simp)
    have hrN : ∀ x ∈ rest, x < N := fun x hx =>
      hdig_lt x (by rw [hDform]; simp [hx])
    refine ⟨d, rest, hrl, hd1, hdN, hrN, ?_⟩
    have hv := (Nat.ofDigits_digits N v).symm
    rw [hv, hDform, Nat.ofDigits_append,
      wsum_ofDigits_even N k w hw k le_rfl (d :: rest) (by simp [hrl]),
      show (d :: rest).length = k + 1 by simp [hrl]]
    simp

/-- Odd-length bridge: `v` is a mirror-weighted kernel sum with nonzero
leading digit iff the base-`N` representation of `v` is a palindrome of
length `2k + 1`. -/
theorem bridge_odd (N k : Nat) (hN : 2 ≤ N) (w : Nat → Nat)
    (hw0 : w 0 = N ^ k)
    (hw : ∀ j, 1 ≤ j → j ≤ k → w j = N ^ (k - j) + N ^ (k + j)) (v : Nat) :
    (∃ d rest, rest.length = k ∧ 1 ≤ d ∧ d < N ∧ (∀ x ∈ rest, x < N) ∧
      v = wsumAux w k (d :: rest)) ↔
    ((Nat.digits N v).length = 2 * k + 1 ∧
      (Nat.digits N v).reverse = Nat.digits N v) := by
  constructor
  · rintro ⟨d, rest, hrl, hd1, hdN, hrN, rfl⟩
    have hds : (d :: rest).length = k + 1 := by simp [hrl]
    have hne : (d :: rest) ≠ [] := by simp
    have hvD : wsumAux w k (d :: rest) =
        Nat.ofDigits N ((d :: rest) ++ (d :: rest).reverse.drop 1) := by
      rw [Nat.ofDigits_append,
        wsum_ofDigits_odd N k w hw0 hw k le_rfl (d :: rest) hds, hds]
      simp
    have hmemD : ∀ x ∈ (d :: rest) ++ (d :: rest).reverse.drop 1,
        x < N := by
      intro x hx
      rcases List.mem_append.mp hx with h | h
      · rcases List.mem_cons.mp h with h | h
        · omega
        · exact hrN x h
      · have h2 := List.mem_of_mem_drop h
        rw [List.mem_reverse] at h2
        rcases List.mem_cons.mp h2 with h2 | h2
        · omega
        · exact hrN x h2
    have hD : Nat.digits N
        (Nat.ofDigits N ((d :: rest) ++ (d :: rest).reverse.drop 1)) =
        (d :: rest) ++ (d :: rest).reverse.drop 1 := by
      apply Nat.digits_ofDigits N (by omega) _ hmemD
      intro h
      rw [List.getLast_eq_head_reverse]
      rw [head_congr (mirror_odd_reverse _ hne) (by simp) (by simp)]
      show d ≠ 0
      omega
    constructor
    · rw [hvD, hD]
      simp [hrl]
      omega
    · rw [hvD, hD]
      exact mirror_odd_reverse _ hne
  · rintro ⟨hlen, hpal⟩
    have hv0 : v ≠ 0 := by
      intro h
      rw [h] at hlen
      simp at hlen
    have hdecomp := pal_decomp_odd (Nat.digits N v) k hlen hpal
    have htl : (List.take (k + 1) (Nat.digits N v)).length = k + 1 := by
      rw [List.length_take, hlen]
      omega
    obtain ⟨d, rest, hdr⟩ := List.exists_cons_of_ne_nil
      (show List.take (k + 1) (Nat.digits N v) ≠ [] by
        intro hc
        rw [hc] at htl
        simp at htl)
    have hrl : rest.length = k := by
      have h2 := htl
      rw [hdr] at h2
      simpa using h2
    have hDform : Nat.digits N v =
        (d :: rest) ++ (d :: rest).reverse.drop 1 := by
      rw [← hdr]
      exact hdecomp
    have hgl := Nat.getLast_digit_ne_zero N hv0
    have hne2 : Nat.digits N v ≠ [] := Nat.digits_ne_nil_iff_ne_zero.mpr hv0
    have hd1 : 1 ≤ d := by
      rw [List.getLast_eq_head_reverse] at hgl
      rw [head_congr hpal (by simpa using hne2) hne2,
        head_congr hDform hne2 (by simp)] at hgl
      have hd : ((d :: rest) ++
          (d :: rest).reverse.drop 1).head (by simp) = d := rfl
      rw [hd] at hgl
      omega
    have hdig_lt : ∀ x ∈ Nat.digits N v, x < N := fun x hx =>
      Nat.digits_lt_base (by omega) hx
    have hdN : d < N := hdig_lt d (by rw [hDform]; simp)
    have hrN : ∀ x ∈ rest, x < N := fun x hx =>
      hdig_lt x (by rw [hDform]; simp [hx])
    refine ⟨d, rest, hrl, hd1, hdN, hrN, ?_⟩
    have hv := (Nat.ofDigits_digits N v).symm
    rw [hv, hDform, Nat.ofDigits_append,
      wsum_ofDigits_odd N k w hw0 hw k le_rfl (d :: rest) (by simp [hrl]),
      show (d :: rest).length = k + 1 by simp [hrl]]
    simp

/-- The register values of a full generator pass (the preconditioned
value prepended) are exactly the `L`-digit base-`N` palindromes. -/
theorem genlist_mem (N L : Nat) (hN : 3 ≤ N) (hL : 2 ≤ L) (v : Nat) :
    v ∈ p0v N L :: psums (p0v N L) (cycle (buildSeq N L)) ↔
      ((Nat.digits N v).length = L ∧
        (Nat.digits N v).reverse = Nat.digits N v) := by
  rcases Nat.eq_or_lt_of_le hL with hL2 | hL3
  · -- L = 2
    have hL2' : L = 2 := hL2.symm
    subst hL2'
    rw [buildSeq_two N (by omega),
      show p0v N 2 = N + 1 from rfl,
      show cycle (Op.inc (N + 1) (N - 2) 0) =
        List.replicate (N - 2) (N + 1) from rfl,
      psums_replicate]
    have hbr := bridge_even N 0 (by omega) (fun _ => N + 1)
      (by
        intro j hj
        have hj0 : j = 0 := by omega
        subst hj0
        simp
        ring) v
    simp only [show 2 * 0 + 2 = 2 by omega] at hbr
    rw [← hbr]
    constructor
    · intro hv
      rcases List.mem_cons.mp hv with h | h
      · refine ⟨1, [], rfl, le_refl 1, by omega, by simp, ?_⟩
        rw [h]
        show N + 1 = 1 * (N + 1) + 0
        ring
      · obtain ⟨i, hi, rfl⟩ := List.mem_map.mp h
        have hi' := List.mem_range.mp hi
        refine ⟨i + 2, [], rfl, by omega, by omega, by simp, ?_⟩
        show N + 1 + (i + 1) * (N + 1) = (i + 2) * (N + 1) + 0
        ring
    · rintro ⟨d, rest, hr0, hd1, hdN, -, rfl⟩
      have hrest : rest = [] := List.eq_nil_of_length_eq_zero hr0
      subst hrest
      rcases Nat.eq_or_lt_of_le hd1 with hd | hd
      · apply List.mem_cons.mpr
        left
        rw [← hd]
        show 1 * (N + 1) + 0 = N + 1
        ring
      · apply List.mem_cons.mpr
        right
        apply List.mem_map.mpr
        refine ⟨d - 2, List.mem_range.mpr (by omega), ?_⟩
        show N + 1 + (d - 2 + 1) * (N + 1) = d * (N + 1) + 0
        have h2 : d - 2 + 1 = d - 1 := by omega
        rw [h2]
        have h3 : 1 + (d - 1) = d := by omega
        calc N + 1 + (d - 1) * (N + 1) = (1 + (d - 1)) * (N + 1) := by ring
          _ = d * (N + 1) + 0 := by rw [h3]; ring
  · -- L ≥ 3
    have hL3' : 3 ≤ L := hL3
    have hk1 : 1 ≤ kv L := by
      unfold kv
      omega
    have hek : ev L + kv L = L - 1 := by
      unfold ev kv
      omega
    obtain ⟨hG, hR, hP, hps, hsum⟩ := buildSeq_facts N L hN hL3'
    obtain ⟨hT, hwj⟩ := wt_closed N L hN hL3'
    have hwk : wt (N - 1) (M0v N L) (Av N L) (kv L) = N ^ (L - 1) + 1 := by
      rw [hwj (kv L) hk1 le_rfl, Nat.sub_self, pow_zero,
        show ev L + kv L = L - 1 from hek]
      ring
    have hp0 : p0v N L = wt (N - 1) (M0v N L) (Av N L) (kv L) := by
      rw [hwk]
      unfold p0v
      rw [if_neg (by omega)]
    rw [hps (p0v N L)]
    have hform : (v ∈ (valBlocks (wt (N - 1) (M0v N L) (Av N L) (kv L))
        (valList (N - 1) (wt (N - 1) (M0v N L) (Av N L)) (kv L - 1))
        (N - 1 - 1)).map (p0v N L + ·)) ↔
        (∃ d rest, rest.length = kv L ∧ 1 ≤ d ∧ d < N ∧
          (∀ x ∈ rest, x < N) ∧
          v = wsumAux (wt (N - 1) (M0v N L) (Av N L)) (kv L) (d :: rest)) := by
      rw [List.mem_map]
      constructor
      · rintro ⟨u, hu, rfl⟩
        obtain ⟨d, hd, u', hu', rfl⟩ :=
          (mem_valBlocks _ _ (N - 1 - 1) u).mp hu
        obtain ⟨ds, hlen, hbound, rfl⟩ :=
          (mem_valList (N - 1) _ (kv L - 1) u').mp hu'
        refine ⟨d + 1, ds, by omega, by omega, by omega,
          fun x hx => by have := hbound x hx; omega, ?_⟩
        show p0v N L + (d * wt (N - 1) (M0v N L) (Av N L) (kv L) +
          wsumAux (wt (N - 1) (M0v N L) (Av N L)) (kv L - 1) ds) =
          (d + 1) * wt (N - 1) (M0v N L) (Av N L) (kv L) +
          wsumAux (wt (N - 1) (M0v N L) (Av N L)) (kv L - 1) ds
        rw [hp0]
        ring
      · rintro ⟨d, rest, hlen, hd1, hdN, hrN, rfl⟩
        refine ⟨(d - 1) * wt (N - 1) (M0v N L) (Av N L) (kv L) +
          wsumAux (wt (N - 1) (M0v N L) (Av N L)) (kv L - 1) rest, ?_, ?_⟩
        · apply (mem_valBlocks _ _ (N - 1 - 1) _).mpr
          refine ⟨d - 1, by omega, _, ?_, rfl⟩
          exact (mem_valList (N - 1) _ (kv L - 1) _).mpr
            ⟨rest, by omega, fun x hx => by have := hrN x hx; omega, rfl⟩
        · show p0v N L + _ =
            wsumAux (wt (N - 1) (M0v N L) (Av N L)) (kv L) (d :: rest)
          show _ = d * wt (N - 1) (M0v N L) (Av N L) (kv L) +
            wsumAux (wt (N - 1) (M0v N L) (Av N L)) (kv L - 1) rest
          rw [hp0]
          have hd' : 1 + (d - 1) = d := by omega
          calc wt (N - 1) (M0v N L) (Av N L) (kv L) +
              ((d - 1) * wt (N - 1) (M0v N L) (Av N L) (kv L) +
                wsumAux (wt (N - 1) (M0v N L) (Av N L)) (kv L - 1) rest)
              = (1 + (d - 1)) * wt (N - 1) (M0v N L) (Av N L) (kv L) +
                wsumAux (wt (N - 1) (M0v N L) (Av N L)) (kv L - 1) rest := by
                ring
            _ = _ := by rw [hd']
    rw [hform]
    rcases Nat.mod_two_eq_zero_or_one L with hpar | hpar
    · -- even L = 2k + 2
      have hev : ev L = kv L + 1 := by
        unfold ev kv
        omega
      have hLk : 2 * kv L + 2 = L := by
        unfold kv
        omega
      have hw : ∀ j, j ≤ kv L →
          wt (N - 1) (M0v N L) (Av N L) j =
            N ^ (kv L - j) + N ^ (kv L + 1 + j) := by
        intro j hjk
        rcases Nat.eq_zero_or_pos j with hj0 | hj1
        · subst hj0
          show M0v N L = N ^ (kv L - 0) + N ^ (kv L + 1 + 0)
          unfold M0v
          rw [if_neg (by omega)]
          have h1 : N * N ^ (kv L - 1) = N ^ (kv L) := by
            rw [← pow_succ']
            congr 1
            omega
          calc N * (N + 1) * N ^ (kv L - 1)
              = (N + 1) * (N * N ^ (kv L - 1)) := by ring
            _ = (N + 1) * N ^ (kv L) := by rw [h1]
            _ = N ^ (kv L) + N * N ^ (kv L) := by ring
            _ = N ^ (kv L - 0) + N ^ (kv L + 1 + 0) := by
                rw [← pow_succ']
                simp
        · rw [hwj j hj1 hjk, hev]
      have hbr := bridge_even N (kv L) (by omega)
        (wt (N - 1) (M0v N L) (Av N L)) hw v
      rw [hLk] at hbr
      exact hbr
    · -- odd L = 2k + 1
      have hev : ev L = kv L := by
        unfold ev kv
        omega
      have hLk : 2 * kv L + 1 = L := by
        unfold kv
        omega
      have hw0 : wt (N - 1) (M0v N L) (Av N L) 0 = N ^ (kv L) := by
        show M0v N L = N ^ (kv L)
        unfold M0v
        rw [if_pos hpar, ← pow_succ']
        congr 1
        omega
      have hw : ∀ j, 1 ≤ j → j ≤ kv L →
          wt (N - 1) (M0v N L) (Av N L) j =
            N ^ (kv L - j) + N ^ (kv L + j) := by
        intro j hj1 hjk
        rw [hwj j hj1 hjk, hev]
      have hbr := bridge_odd N (kv L) (by omega)
        (wt (N - 1) (M0v N L) (Av N L)) hw0 hw v
      rw [hLk] at hbr
      exact hbr

/-- Specification-modelled driver loop (from the claim's words, for
comparison with `calcPnLoop`): tests the register with the detector
immediately after every generator step call, including the final
roll-over step, returning the first accepted value. -/
def calcPnLoopSpec (N : Nat) : BState → Nat → Nat → GenState → Nat →
    Option Nat
  | _, _, _, _, 0 => none
  | s, p, L, g, fuel + 1 =>
      match genStep g p with
      | none => none
      | some (g', p', more) =>
          if (isBinPal s p').1 then some p'
          else if more then
            calcPnLoopSpec N (isBinPal s p').2 p' L g' fuel
          else
            calcPnLoopSpec N (isBinPal s p').2 p' (L + 1)
              (mkGen N (L + 1)) fuel

/-- Specification-modelled `calc_Pn` (from the claim's words): seeds the
register to `N + 1` and tests after every step, roll-over included. -/
def calcPnSpec (N fuel : Nat) : Option Nat :=
  calcPnLoopSpec N initB (N + 1) 2 (mkGen N 2) fuel

/-- The stream of register values produced by successive generator step
calls, each tagged with the flag the step reported (`true` = more work,
`false` = roll-over), switching to the next length's generator after a
roll-over, as `calc_Pn` does. -/
def driverStream (N : Nat) : Nat → Nat → GenState → Nat →
    List (Nat × Bool)
  | _, _, _, 0 => []
  | L, p, g, fuel + 1 =>
      match genStep g p with
      | none => []
      | some (g', p', more) =>
          if more then (p', true) :: driverStream N L p' g' fuel
          else (p', false) :: driverStream N (L + 1) p' (mkGen N (L + 1))
            fuel

/-- Folds the detector over a list of values, returning the first
accepted one. -/
def firstAccept : BState → List Nat → Option Nat
  | _, [] => none
  | s, v :: vs =>
      if (isBinPal s v).1 then some v else firstAccept (isBinPal s v).2 vs

theorem calcPnLoop_stream (N : Nat) : ∀ fuel s p L g,
    (calcPnLoop N s p L g fuel).1 =
      firstAccept s (((driverStream N L p g fuel).filter
        fun e => e.2).map Prod.fst) ∧
    ∀ v ∈ (calcPnLoop N s p L g fuel).2,
      (v, true) ∈ driverStream N L p g fuel := by
  intro fuel
  induction fuel with
  | zero =>
    intro s p L g
    exact ⟨rfl, by simp [calcPnLoop, driverStream]⟩
  | succ fuel ih =>
    intro s p L g
    cases hg : genStep g p with
    | none =>
      refine ⟨?_, ?_⟩
      · simp [calcPnLoop, driverStream, hg, firstAccept]
      · intro v hv
        simp [calcPnLoop, hg] at hv
    | some t =>
      obtain ⟨g', p', more⟩ := t
      cases more with
      | false =>
        obtain ⟨h1, h2⟩ := ih s p' (L + 1) (mkGen N (L + 1))
        refine ⟨?_, ?_⟩
        · simpa [calcPnLoop, driverStream, hg] using h1
        · intro v hv
          simp only [calcPnLoop, hg] at hv
          simp only [driverStream, hg, if_neg Bool.false_ne_true]
          exact List.mem_cons_of_mem _ (h2 v hv)
      | true =>
        rcases hbp : isBinPal s p' with ⟨r, s'⟩
        cases r with
        | true =>
          refine ⟨?_, ?_⟩
          · simp [calcPnLoop, driverStream, hg, hbp, firstAccept]
          · intro v hv
            simp [calcPnLoop, hg, hbp] at hv
            simp [hv, driverStream, hg]
        | false =>
          obtain ⟨h1, h2⟩ := ih s' p' L g'
          refine ⟨?_, ?_⟩
          · simpa [calcPnLoop, driverStream, hg, hbp, firstAccept]
              using h1
          · intro v hv
            simp only [calcPnLoop, hg, hbp] at hv
            simp only [if_neg Bool.false_ne_true] at hv
            simp only [driverStream, hg, if_pos rfl]
            rcases List.mem_cons.mp hv with h | h
            · exact h ▸ List.mem_cons_self _ _
            · exact List.mem_cons_of_mem _ (h2 v h)

/-- C3 (counterexample): at `N = 18` the code driver and the claimed
driver disagree.  The code returns `975`; a driver that tested the
register after every step call including the roll-over step would have
accepted the roll-over value `325 = 101₁₈ = 101000101₂`, which the code
never passes to the detector. -/
theorem driver_claim_false :
    calcPn 18 100 = some 975 ∧ calcPnSpec 18 100 = some 325 ∧
    (325 : Nat) ∉ (calcPnTested 18 100).2 ∧ (325 : Nat) ≠ 975 := by
  refine ⟨by decide, by decide, by decide, by decide⟩

/-- C3 (amended): `calc_Pn(N)` seeds the register to `N + 1` and returns
the first detector-accepted value among the register values of exactly
those generator step calls that report more work; the register value of a
roll-over step is never passed to the detector (every tested value is
tagged `true` in the step stream). -/
theorem driver_tests_incomplete_only (N fuel : Nat) :
    calcPn N fuel =
      firstAccept initB
        (((driverStream N 2 (N + 1) (mkGen N 2) fuel).filter
          fun e => e.2).map Prod.fst) ∧
    ∀ v ∈ (calcPnTested N fuel).2,
      (v, true) ∈ driverStream N 2 (N + 1) (mkGen N 2) fuel :=
  calcPnLoop_stream N fuel initB (N + 1) 2 (mkGen N 2)

theorem buildSeq_good (N L : Nat) (hN : 3 ≤ N) (hL : 2 ≤ L) :
    Good (buildSeq N L) ∧ reset (buildSeq N L) = buildSeq N L ∧
      posOp (buildSeq N L) := by
  rcases Nat.eq_or_lt_of_le hL with hL2 | hL3
  · have hL2' : L = 2 := hL2.symm
    subst hL2'
    rw [buildSeq_two N (by omega)]
    exact ⟨Good.inc _ _ 0 (by omega), rfl, by show 0 < N + 1; omega⟩
  · obtain ⟨hG, hR, hP, -, -⟩ := buildSeq_facts N L hN hL3
    exact ⟨hG, hR, hP⟩

theorem genlist_pairwise (N L : Nat) (hN : 3 ≤ N) (hL : 2 ≤ L) :
    (p0v N L :: psums (p0v N L) (cycle (buildSeq N L))).Pairwise
      (· < ·) := by
  rcases Nat.eq_or_lt_of_le hL with hL2 | hL3
  · have hL2' : L = 2 := hL2.symm
    subst hL2'
    rw [buildSeq_two N (by omega), show p0v N 2 = N + 1 from rfl,
      show cycle (Op.inc (N + 1) (N - 2) 0) =
        List.replicate (N - 2) (N + 1) from rfl,
      psums_replicate]
    apply List.pairwise_cons.mpr
    constructor
    · intro b hb
      obtain ⟨i, hi, rfl⟩ := List.mem_map.mp hb
      have hpos : 0 < (i + 1) * (N + 1) := Nat.mul_pos (by omega) (by omega)
      omega
    · apply List.pairwise_map.mpr
      apply List.Pairwise.imp ?_ (List.pairwise_lt_range _)
      intro a b hab
      have h2 : (a + 1) * (N + 1) < (b + 1) * (N + 1) :=
        (Nat.mul_lt_mul_right (by omega)).mpr (by omega)
      omega
  · have hk1 : 1 ≤ kv L := by
      unfold kv
      omega
    obtain ⟨hG, hR, hP, hps, hsum⟩ := buildSeq_facts N L hN hL3
    rw [hps]
    have hM0 : 0 < M0v N L := by
      apply Nat.mul_pos
      · split
        · omega
        · exact Nat.mul_pos (by omega) (by omega)
      · exact pow_pos (by omega) _
    have hA : ∀ j, 0 < Av N L j := fun j =>
      Nat.mul_pos (by omega) (pow_pos (by omega) _)
    obtain ⟨hVp, hVb⟩ :=
      pairwise_valList (N - 1) (M0v N L) (Av N L) hM0 hA (kv L - 1)
    have hW : Twt (N - 1) (M0v N L) (Av N L) (kv L - 1) <
        wt (N - 1) (M0v N L) (Av N L) (kv L) := by
      have hwk : wt (N - 1) (M0v N L) (Av N L) (kv L) =
          Twt (N - 1) (M0v N L) (Av N L) (kv L - 1) + Av N L (kv L - 1) := by
        conv_lhs => rw [show kv L = (kv L - 1) + 1 by omega]
        rfl
      rw [hwk]
      have := hA (kv L - 1)
      omega
    obtain ⟨hp, -⟩ := pairwise_valBlocks _ _ _ hVp hVb hW (N - 1 - 1)
    apply List.pairwise_map.mpr
    exact hp.imp (by intro a b h; omega)

theorem genlist_total (N L : Nat) (hN : 3 ≤ N) (hL : 2 ≤ L) :
    p0v N L + (cycle (buildSeq N L)).sum + 2 = N ^ L + 1 := by
  rcases Nat.eq_or_lt_of_le hL with hL2 | hL3
  · have hL2' : L = 2 := hL2.symm
    subst hL2'
    rw [buildSeq_two N (by omega), show p0v N 2 = N + 1 from rfl,
      show cycle (Op.inc (N + 1) (N - 2) 0) =
        List.replicate (N - 2) (N + 1) from rfl,
      List.sum_replicate, smul_eq_mul]
    have h2 : (N - 1) * (N + 1) + 1 = N * N := by
      obtain ⟨n1, rfl⟩ : ∃ n1, N = n1 + 1 := ⟨N - 1, by omega⟩
      simp [Nat.add_sub_cancel]
      ring
    have h1 : 1 + (N - 2) = N - 1 := by omega
    calc N + 1 + (N - 2) * (N + 1) + 2
        = (1 + (N - 2)) * (N + 1) + 2 := by ring
      _ = (N - 1) * (N + 1) + 2 := by rw [h1]
      _ = ((N - 1) * (N + 1) + 1) + 1 := by ring
      _ = N * N + 1 := by rw [h2]
      _ = N ^ 2 + 1 := by ring
  · have hk1 : 1 ≤ kv L := by
      unfold kv
      omega
    have hekL : ev L + kv L + 1 = L := by
      unfold ev kv
      omega
    obtain ⟨-, -, -, -, hsum⟩ := buildSeq_facts N L hN hL3
    obtain ⟨hT, hwj⟩ := wt_closed N L hN hL3
    have hp0 : p0v N L = wt (N - 1) (M0v N L) (Av N L) (kv L) := by
      rw [hwj (kv L) hk1 le_rfl, Nat.sub_self, pow_zero,
        show ev L + kv L = L - 1 by omega]
      unfold p0v
      rw [if_neg (by omega)]
      ring
    have hTk := hT (kv L) le_rfl
    rw [Nat.sub_self, pow_zero] at hTk
    rw [hp0]
    have hL' : ev L + kv L + 1 = L := hekL
    calc wt (N - 1) (M0v N L) (Av N L) (kv L) +
          (cycle (buildSeq N L)).sum + 2
        = ((cycle (buildSeq N L)).sum +
            wt (N - 1) (M0v N L) (Av N L) (kv L)) + 2 := by ring
      _ = Twt (N - 1) (M0v N L) (Av N L) (kv L) + 2 := by rw [hsum]
      _ = (Twt (N - 1) (M0v N L) (Av N L) (kv L) + 1) + 1 := by ring
      _ = N ^ (ev L + kv L + 1) + 1 := by rw [hTk]
      _ = N ^ L + 1 := by rw [hL']

/-- The `L`-digit base-`N` palindromes exceeding `lo`, in increasing
order (specification-side reference list). -/
def palsGT (N L lo : Nat) : List Nat :=
  (List.range (N ^ L)).filter fun v =>
    decide ((Nat.digits N v).length = L) &&
      decide ((Nat.digits N v).reverse = Nat.digits N v) && decide (lo < v)

theorem psums_eq_palsGT (N L : Nat) (hN : 3 ≤ N) (hL : 2 ≤ L) :
    psums (p0v N L) (cycle (buildSeq N L)) = palsGT N L (p0v N L) := by
  have hpw := genlist_pairwise N L hN hL
  apply sorted_eq_of_mem_iff
  · exact (List.pairwise_cons.mp hpw).2
  · exact (List.pairwise_lt_range _).filter _
  · intro v
    have hmem := genlist_mem N L hN hL v
    have hhead := (List.pairwise_cons.mp hpw).1
    constructor
    · intro hv
      have hpal := hmem.mp (List.mem_cons_of_mem _ hv)
      have hlt : p0v N L < v := hhead v hv
      apply List.mem_filter.mpr
      refine ⟨List.mem_range.mpr ?_, ?_⟩
      · have := Nat.lt_base_pow_length_digits (b := N) (m := v) (by omega)
        rw [hpal.1] at this
        exact this
      · simp [hpal.1, hpal.2, hlt]
    · intro hv
      obtain ⟨hrange, hprop⟩ := List.mem_filter.mp hv
      simp only [Bool.and_eq_true, decide_eq_true_eq] at hprop
      obtain ⟨⟨hlen, hpal⟩, hlt⟩ := hprop
      have hcons := hmem.mpr ⟨hlen, hpal⟩
      rcases List.mem_cons.mp hcons with h | h
      · omega
      · exact h

/-- C2 (counterexample): at `N = 3`, `L = 3`, with the register
preconditioned to `10` (the value `101₃` left by the length-2
generator), the value `10` itself is a 3-digit base-3 palindrome greater
than the previous length's maximum `8` (`22₃`), but it is not among the
register values produced by the steps of `Generator(3, 3)` — the full
run produces `13, 16, 20, 23, 26` and then rolls over to `28`. -/
theorem generator_claim_false :
    (Nat.digits 3 10).reverse = Nat.digits 3 10 ∧
    (Nat.digits 3 10).length = 3 ∧ 8 < 10 ∧
    genRunTrace 6 (mkGen 3 3) 10 =
      some ([(13, true), (16, true), (20, true), (23, true), (26, true),
        (28, false)], ⟨false, buildSeq 3 3⟩, 28) ∧
    (10 : Nat) ∉ [13, 16, 20, 23, 26] := by
  refine ⟨?_, ?_, by omega, by decide, by decide⟩
  · norm_num [Nat.digits_def']
  · norm_num [Nat.digits_def']

/-- C2 (amended): for every base `N ≥ 3` and digit length `L ≥ 2`, with
the register preconditioned to the value `p0v N L` left by the previous
length's generator (`N + 1` for `L = 2`, the smallest `L`-digit
palindrome `N^(L-1) + 1` otherwise), the register values produced by the
steps of `Generator(N, L)` other than the final step are exactly the
`L`-digit base-`N` palindromes strictly greater than the preconditioned
value, in strictly increasing order with no duplicates and no omissions;
every such step reports incomplete, and the final step adds the constant
`2`, reports complete, and leaves the smallest `(L+1)`-digit palindrome
`N^L + 1` in the register. -/
theorem generator_enumerates (N L : Nat) (hN : 3 ≤ N) (hL : 2 ≤ L)
    (hov : N ^ L + 1 ≤ U64MAX) :
    genRunTrace ((cycle (buildSeq N L)).length + 1) (mkGen N L) (p0v N L) =
      some (mkTrace (p0v N L) (cycle (buildSeq N L) ++ [2]),
        ⟨false, buildSeq N L⟩, N ^ L + 1) ∧
    (mkTrace (p0v N L) (cycle (buildSeq N L) ++ [2])).map Prod.fst =
      palsGT N L (p0v N L) ++ [N ^ L + 1] ∧
    (mkTrace (p0v N L) (cycle (buildSeq N L) ++ [2])).map Prod.snd =
      List.replicate (cycle (buildSeq N L)).length true ++ [false] ∧
    (palsGT N L (p0v N L)).Pairwise (· < ·) := by
  obtain ⟨hG, hR, hP⟩ := buildSeq_good N L hN hL
  have htotal := genlist_total N L hN hL
  have hrem : rem (buildSeq N L) = cycle (buildSeq N L) := by
    rw [← hR, rem_reset, cycle_reset]
  have hov' : p0v N L + (cycle (buildSeq N L)).sum + 2 ≤ U64MAX := by
    omega
  have hrun := genRunTrace_rem (cycle (buildSeq N L)) (buildSeq N L)
    (p0v N L) hG hrem hov'
  rw [hR, htotal] at hrun
  refine ⟨hrun, ?_, ?_, ?_⟩
  · rw [mkTrace_map_fst, psums_append]
    rw [psums_eq_palsGT N L hN hL]
    show _ ++ [p0v N L + (cycle (buildSeq N L)).sum + 2] = _
    rw [htotal]
  · rw [mkTrace_map_snd _ _ (by simp)]
    simp
  · rw [← psums_eq_palsGT N L hN hL]
    exact (List.pairwise_cons.mp (genlist_pairwise N L hN hL)).2

/-- C2 witness at `N = 3`, `L = 2`. -/
theorem generator_enumerates_witness :
    genRunTrace ((cycle (buildSeq 3 2)).length + 1) (mkGen 3 2) (p0v 3 2) =
      some (mkTrace (p0v 3 2) (cycle (buildSeq 3 2) ++ [2]),
        ⟨false, buildSeq 3 2⟩, 3 ^ 2 + 1) ∧
    (mkTrace (p0v 3 2) (cycle (buildSeq 3 2) ++ [2])).map Prod.fst =
      palsGT 3 2 (p0v 3 2) ++ [3 ^ 2 + 1] :=
  ⟨(generator_enumerates 3 2 (by decide) (by decide) (by decide)).1,
    (generator_enumerates 3 2 (by decide) (by decide) (by decide)).2.1⟩

theorem step_increases : ∀ (op : Op) (p : Nat) (op' : Op) (p' : Nat)
    (m : Bool), posOp op → step op p = some (op', p', m) →
    p < p' ∧ posOp op' := by
  intro op
  induction op with
  | inc a n c =>
    intro p op' p' m hpos hstep
    have ha : 0 < a := hpos
    simp only [step] at hstep
    split at hstep
    · simp at hstep
    · split at hstep <;>
      · simp only [Option.some.injEq, Prod.mk.injEq] at hstep
        obtain ⟨h1, h2, h3⟩ := hstep
        refine ⟨by omega, ?_⟩
        rw [← h1]
        exact ha
  | paired onS S I rpt counter ihS =>
    intro p op' p' m hpos hstep
    obtain ⟨hS, hI⟩ := hpos
    simp only [step] at hstep
    split at hstep
    · split at hstep
      · cases hS' : step S p with
        | none => rw [hS'] at hstep; simp at hstep
        | some t =>
          obtain ⟨S'', p'', m''⟩ := t
          rw [hS'] at hstep
          simp only [Option.some.injEq, Prod.mk.injEq] at hstep
          obtain ⟨h1, h2, h3⟩ := hstep
          obtain ⟨hlt, hpos'⟩ := ihS p S'' p'' m'' hS hS'
          refine ⟨by omega, ?_⟩
          rw [← h1]
          exact ⟨hpos', hI⟩
      · split at hstep
        · simp at hstep
        · simp only [Option.some.injEq, Prod.mk.injEq] at hstep
          obtain ⟨h1, h2, h3⟩ := hstep
          refine ⟨by omega, ?_⟩
          rw [← h1]
          exact ⟨hS, hI⟩
    · cases hS' : step S p with
      | none => rw [hS'] at hstep; simp at hstep
      | some t =>
        obtain ⟨S'', p'', m''⟩ := t
        simp only [hS'] at hstep
        obtain ⟨hlt, hpos'⟩ := ihS p S'' p'' m'' hS hS'
        split at hstep <;>
        · simp only [Option.some.injEq, Prod.mk.injEq] at hstep
          obtain ⟨h1, h2, h3⟩ := hstep
          refine ⟨by omega, ?_⟩
          rw [← h1]
          exact ⟨hpos', hI⟩

theorem genStep_increases (g : GenState) (p p' : Nat) (g' : GenState)
    (m : Bool) (hpos : posOp g.seq)
    (hstep : genStep g p = some (g', p', m)) :
    p < p' ∧ posOp g'.seq := by
  unfold genStep at hstep
  split at hstep
  · split at hstep
    · simp at hstep
    · simp only [Option.some.injEq, Prod.mk.injEq] at hstep
      obtain ⟨h1, h2, h3⟩ := hstep
      refine ⟨by omega, ?_⟩
      rw [← h1]
      exact hpos
  · cases hS' : step g.seq p with
    | none => rw [hS'] at hstep; simp at hstep
    | some t =>
      obtain ⟨S'', p'', m''⟩ := t
      rw [hS'] at hstep
      simp only [Option.some.injEq, Prod.mk.injEq] at hstep
      obtain ⟨h1, h2, h3⟩ := hstep
      obtain ⟨hlt, hpos'⟩ := step_increases g.seq p S'' p'' m'' hpos hS'
      refine ⟨by omega, ?_⟩
      rw [← h1]
      exact hpos'

theorem chain_weaken_head {a b : Nat} {l : List Nat} (hab : a < b)
    (h : List.Chain' (· < ·) (b :: l)) :
    List.Chain' (· < ·) (a :: l) := by
  cases l with
  | nil => simp
  | cons x xs =>
    obtain ⟨hbx, hxs⟩ := List.chain'_cons.mp h
    exact List.chain'_cons.mpr ⟨by omega, hxs⟩

theorem calcPnLoop_chain (N : Nat) (hN : 3 ≤ N) : ∀ fuel s p L g,
    2 ≤ L → posOp g.seq →
    List.Chain' (· < ·) (p :: (calcPnLoop N s p L g fuel).2) := by
  intro fuel
  induction fuel with
  | zero =>
    intro s p L g hL hpos
    simp [calcPnLoop]
  | succ fuel ih =>
    intro s p L g hL hpos
    cases hg : genStep g p with
    | none => simp [calcPnLoop, hg]
    | some t =>
      obtain ⟨g', p', more⟩ := t
      obtain ⟨hlt, hpos'⟩ := genStep_increases g p p' g' more hpos hg
      cases more with
      | false =>
        have hposN : posOp (mkGen N (L + 1)).seq :=
          (buildSeq_good N (L + 1) hN (by omega)).2.2
        have hch := ih s p' (L + 1) (mkGen N (L + 1)) (by omega) hposN
        simp only [calcPnLoop, hg, if_neg Bool.false_ne_true]
        exact chain_weaken_head hlt hch
      | true =>
        rcases hbp : isBinPal s p' with ⟨r, s'⟩
        cases r with
        | true =>
          simp [calcPnLoop, hg, hbp, hlt]
        | false =>
          have hch := ih s' p' L g' hL hpos'
          simp only [calcPnLoop, hg, hbp, if_neg Bool.false_ne_true]
          exact List.chain'_cons.mpr ⟨hlt, hch⟩

/-- C10 (confirmed): within a `calc_Pn(N)` run with `N ≥ 3`, every
operation tree built for a digit length `L ≥ 2` has only strictly
positive adders (`posOp`), every generator step on a positive tree
strictly increases the register and preserves positivity (the roll-over
adds the positive constant `2`), and consequently the seed `N + 1`
followed by the values passed to the binary-palindrome detector forms a
strictly increasing sequence — the detector's monotone-input
precondition. -/
theorem positive_adders_monotone (N : Nat) (hN : 3 ≤ N) (fuel : Nat) :
    (∀ L, 2 ≤ L → posOp (buildSeq N L)) ∧
    (∀ (g : GenState) (p p' : Nat) (g' : GenState) (m : Bool),
      posOp g.seq → genStep g p = some (g', p', m) →
      p < p' ∧ posOp g'.seq) ∧
    List.Chain' (· < ·) ((N + 1) :: (calcPnTested N fuel).2) := by
  refine ⟨?_, ?_, ?_⟩
  · intro L hL
    exact (buildSeq_good N L hN hL).2.2
  · intro g p p' g' m hpos hstep
    exact genStep_increases g p p' g' m hpos hstep
  · exact calcPnLoop_chain N hN fuel initB (N + 1) 2 (mkGen N 2)
      le_rfl (buildSeq_good N 2 hN le_rfl).2.2

/-- C10 witness at `N = 3`, fuel 5. -/
theorem positive_adders_monotone_witness :
    (∀ L, 2 ≤ L → posOp (buildSeq 3 L)) ∧
    (∀ (g : GenState) (p p' : Nat) (g' : GenState) (m : Bool),
      posOp g.seq → genStep g p = some (g', p', m) →
      p < p' ∧ posOp g'.seq) ∧
    List.Chain' (· < ·) ((3 + 1) :: (calcPnTested 3 5).2) :=
  positive_adders_monotone 3 (by decide) 5

/-- Well-formedness of a detector state after seeing inputs up to `m`:
`_msb` is a single bit `2^k` with `k ≤ 63`, `_mask` holds exactly the
64-bit positions above `k`, and bit `k` does not exceed the largest
input seen so far. -/
def InvB (s : BState) (m : Nat) : Prop :=
  ∃ k, k ≤ 63 ∧ s.msb = 2 ^ k ∧ s.mask = 2 ^ 64 - 2 ^ (k + 1) ∧
    2 ^ k ≤ max m 1

theorem land_mask_eq_zero_iff (p k : Nat) (hp : p < 2 ^ 64)
    (hk : k ≤ 63) :
    (p &&& (2 ^ 64 - 2 ^ (k + 1)) = 0) ↔ p < 2 ^ (k + 1) := by
  have hmask : (2 : Nat) ^ 64 - 2 ^ (k + 1) = (2 ^ (63 - k) - 1) <<< (k + 1) := by
    rw [Nat.shiftLeft_eq, Nat.sub_mul, one_mul, ← pow_add]
    have h1 : 63 - k + (k + 1) = 64 := by omega
    rw [h1]
  have hmb : ∀ i, ((2 : Nat) ^ 64 - 2 ^ (k + 1)).testBit i =
      (decide (k + 1 ≤ i) && decide (i < 64)) := by
    intro i
    rw [hmask, Nat.testBit_shiftLeft, Nat.testBit_two_pow_sub_one]
    by_cases h1 : k + 1 ≤ i
    · by_cases h2 : i < 64
      · have h3 : i - (k + 1) < 63 - k := by omega
        simp [h1, h2, h3]
      · have h3 : ¬(i - (k + 1) < 63 - k) := by omega
        simp [h1, h2, h3]
    · simp [h1]
  constructor
  · intro h0
    by_contra hge
    push_neg at hge
    have hppos : 0 < p := lt_of_lt_of_le (pow_pos (by norm_num) (k + 1)) hge
    have h1 : 2 ^ Nat.log 2 p ≤ p := Nat.pow_log_le_self 2 (by omega)
    have h2 : p < 2 ^ (Nat.log 2 p + 1) := Nat.lt_pow_succ_log_self (by norm_num) p
    have hkK : k + 1 ≤ Nat.log 2 p := by
      by_contra hh
      push_neg at hh
      have : (2 : Nat) ^ (Nat.log 2 p + 1) ≤ 2 ^ (k + 1) :=
        Nat.pow_le_pow_right (by norm_num) (by omega)
      omega
    have hK64 : Nat.log 2 p < 64 := Nat.log_lt_of_lt_pow (by omega) hp
    have hbit : p.testBit (Nat.log 2 p) = true := by
      rw [Nat.testBit_to_div_mod]
      have hlt2 : p < 2 * 2 ^ Nat.log 2 p := by
        rw [← pow_succ']
        exact h2
      have hdiv : p / 2 ^ Nat.log 2 p = 1 :=
        Nat.div_eq_of_lt_le (by omega) (by omega)
      simp [hdiv]
    have hc := congrArg (fun x => x.testBit (Nat.log 2 p)) h0
    simp only [Nat.testBit_and, Nat.zero_testBit, hbit, hmb,
      Bool.true_and] at hc
    simp [hkK, hK64] at hc
  · intro hlt
    apply Nat.eq_of_testBit_eq
    intro i
    rw [Nat.testBit_and, Nat.zero_testBit, hmb i]
    rcases le_or_lt (k + 1) i with h | h
    · have hbf : p.testBit i = false :=
        Nat.testBit_lt_two_pow
          (lt_of_lt_of_le hlt (Nat.pow_le_pow_right (by norm_num) h))
      simp [hbf]
    · simp [Nat.not_le.mpr h]

theorem growB_spec : ∀ (fuel k p : Nat), 2 ^ k ≤ p → p < 2 ^ 64 →
    k ≤ 63 → Nat.log 2 p < k + fuel →
    growB p (2 ^ k) (2 ^ 64 - 2 ^ (k + 1)) fuel =
      (2 ^ Nat.log 2 p, 2 ^ 64 - 2 ^ (Nat.log 2 p + 1)) := by
  intro fuel
  induction fuel with
  | zero =>
    intro k p h1 h2 h3 h4
    have : k ≤ Nat.log 2 p := Nat.le_log_of_pow_le (by norm_num) h1
    omega
  | succ fuel ih =>
    intro k p h1 h2 h3 h4
    simp only [growB]
    by_cases hc : p < 2 ^ (k + 1)
    · have hz : p &&& (2 ^ 64 - 2 ^ (k + 1)) = 0 :=
        (land_mask_eq_zero_iff p k h2 h3).mpr hc
      rw [if_neg (not_not_intro hz)]
      have hlog : Nat.log 2 p = k := Nat.log_eq_of_pow_le_of_lt_pow h1 hc
      rw [hlog]
    · have hnz : p &&& (2 ^ 64 - 2 ^ (k + 1)) ≠ 0 := by
        intro h0
        exact hc ((land_mask_eq_zero_iff p k h2 h3).mp h0)
      rw [if_pos hnz]
      push_neg at hc
      have hk1 : k + 1 ≤ 63 := by
        by_contra hh
        push_neg at hh
        have : (2 : Nat) ^ 64 ≤ 2 ^ (k + 1) :=
          Nat.pow_le_pow_right (by norm_num) (by omega)
        omega
      have e1 : 2 ^ k * 2 % 2 ^ 64 = 2 ^ (k + 1) := by
        rw [← pow_succ]
        exact Nat.mod_eq_of_lt (Nat.pow_lt_pow_right (by norm_num) (by omega))
      have e2 : (2 ^ 64 - 2 ^ (k + 1)) * 2 % 2 ^ 64 =
          2 ^ 64 - 2 ^ (k + 2) := by
        have h21 : (2 : Nat) ^ (k + 2) ≤ 2 ^ 64 :=
          Nat.pow_le_pow_right (by norm_num) (by omega)
        have h23 : (2 : Nat) ^ (k + 1) ≤ 2 ^ 64 :=
          Nat.pow_le_pow_right (by norm_num) (by omega)
        have h24 : (2 : Nat) ^ (k + 2) = 2 ^ (k + 1) * 2 := by
          rw [pow_succ]
        have h22 : (2 ^ 64 - 2 ^ (k + 1)) * 2 =
            2 ^ 64 + (2 ^ 64 - 2 ^ (k + 2)) := by omega
        have h25 : 0 < (2 : Nat) ^ (k + 2) := pow_pos (by norm_num) _
        rw [h22, Nat.add_mod_left]
        exact Nat.mod_eq_of_lt (by omega)
      rw [e1, e2]
      exact ih (k + 1) p hc h2 hk1 (by omega)

theorem pair_cond (p u v : Nat) (huv : v < u) :
    (p &&& (2 ^ u ||| 2 ^ v) = 0 ∨
      p &&& (2 ^ u ||| 2 ^ v) = 2 ^ u ||| 2 ^ v) ↔
      p.testBit u = p.testBit v := by
  have hne : u ≠ v := by omega
  constructor
  · rintro (h | h)
    · have hu := congrArg (fun x => x.testBit u) h
      have hv := congrArg (fun x => x.testBit v) h
      simp [Nat.testBit_and, Nat.testBit_or, Nat.testBit_two_pow,
        Nat.zero_testBit] at hu hv
      rw [hu, hv]
    · have hu := congrArg (fun x => x.testBit u) h
      have hv := congrArg (fun x => x.testBit v) h
      simp [Nat.testBit_and, Nat.testBit_or, Nat.testBit_two_pow,
        hne, hne.symm] at hu hv
      rw [hu, hv]
  · intro hb
    cases hpu : p.testBit u with
    | false =>
      left
      apply Nat.eq_of_testBit_eq
      intro i
      rw [Nat.testBit_and, Nat.testBit_or, Nat.testBit_two_pow,
        Nat.testBit_two_pow, Nat.zero_testBit]
      by_cases hiu : u = i
      · rw [← hiu]
        simp [hpu]
      · by_cases hiv : v = i
        · rw [← hiv]
          have hf : p.testBit v = false := by rw [← hb, hpu]
          simp [hf]
        · simp [hiu, hiv]
    | true =>
      right
      apply Nat.eq_of_testBit_eq
      intro i
      rw [Nat.testBit_and, Nat.testBit_or, Nat.testBit_two_pow,
        Nat.testBit_two_pow]
      by_cases hiu : u = i
      · rw [← hiu]
        simp [hpu]
      · by_cases hiv : v = i
        · rw [← hiv]
          have ht : p.testBit v = true := by rw [← hb, hpu]
          simp [ht]
        · simp [hiu, hiv]

theorem pairScan_spec (p K : Nat) : ∀ (fuel u v : Nat), u + v = K →
    u ≤ v + 2 * fuel →
    (pairScan p (2 ^ u) (2 ^ v) fuel = true ↔
      ∀ j, v ≤ j → j ≤ u → p.testBit j = p.testBit (K - j)) := by
  intro fuel
  induction fuel with
  | zero =>
    intro u v hK hfuel
    simp only [pairScan]
    constructor
    · intro _ j hj1 hj2
      have h2 : K - j = j := by omega
      rw [h2]
    · intro _
      trivial
  | succ fuel ih =>
    intro u v hK hfuel
    by_cases hvu : v < u
    · have hpow : (2 : Nat) ^ v < 2 ^ u :=
        (Nat.pow_lt_pow_iff_right (by norm_num)).mpr hvu
      simp only [pairScan]
      rw [if_pos hpow]
      by_cases hcond : (p &&& (2 ^ u ||| 2 ^ v) = 0 ∨
          p &&& (2 ^ u ||| 2 ^ v) = 2 ^ u ||| 2 ^ v)
      · rw [if_pos hcond]
        have hbits : p.testBit u = p.testBit v :=
          (pair_cond p u v hvu).mp hcond
        have hdiv : 2 ^ u / 2 = 2 ^ (u - 1) := by
          conv_lhs => rw [show u = (u - 1) + 1 by omega, pow_succ]
          exact Nat.mul_div_cancel _ (by norm_num)
        have hmul : (2 : Nat) ^ v * 2 = 2 ^ (v + 1) := (pow_succ 2 v).symm
        rw [hdiv, hmul, ih (u - 1) (v + 1) (by omega) (by omega)]
        constructor
        · intro h j hj1 hj2
          rcases Nat.eq_or_lt_of_le hj1 with h' | h'
          · rw [← h', show K - v = u by omega]
            exact hbits.symm
          · rcases Nat.eq_or_lt_of_le hj2 with h'' | h''
            · rw [h'', show K - u = v by omega]
              exact hbits
            · exact h j (by omega) (by omega)
        · intro h j hj1 hj2
          exact h j (by omega) (by omega)
      · rw [if_neg hcond]
        have hbits : p.testBit u ≠ p.testBit v := fun hb =>
          hcond ((pair_cond p u v hvu).mpr hb)
        constructor
        · intro h
          simp at h
        · intro h
          exfalso
          apply hbits
          have h1 := h v le_rfl (by omega)
          rw [show K - v = u by omega] at h1
          exact h1.symm
    · have hpow : ¬((2 : Nat) ^ v < 2 ^ u) := by
        intro hc
        exact hvu ((Nat.pow_lt_pow_iff_right (by norm_num)).mp hc)
      simp only [pairScan]
      rw [if_neg hpow]
      constructor
      · intro _ j hj1 hj2
        have h2 : K - j = j := by omega
        rw [h2]
      · intro _
        trivial

theorem digits_two_getD : ∀ (p i : Nat), i < (Nat.digits 2 p).length →
    (Nat.digits 2 p).getD i 0 = p / 2 ^ i % 2 := by
  intro p
  induction p using Nat.strong_induction_on with
  | _ p ih =>
    intro i h
    rcases p with _ | q
    · simp [Nat.digits_zero] at h
    · rw [Nat.digits_def' (by norm_num : 1 < 2) (Nat.succ_pos q)] at h ⊢
      rcases i with _ | j
      · simp
      · rw [List.getD_cons_succ]
        rw [ih ((q + 1) / 2) (Nat.div_lt_self (by omega) (by norm_num)) j
          (by simpa using h)]
        rw [Nat.div_div_eq_div_mul, ← pow_succ']

theorem digits_two_palindrome_iff (p : Nat) (hp : 0 < p) :
    (Nat.digits 2 p).reverse = Nat.digits 2 p ↔
      ∀ j, j ≤ Nat.log 2 p → p.testBit j = p.testBit (Nat.log 2 p - j) := by
  have hlen : (Nat.digits 2 p).length = Nat.log 2 p + 1 :=
    Nat.digits_len 2 p (by norm_num) (by omega)
  have hbit : ∀ j, j ≤ Nat.log 2 p →
      (p.testBit j = p.testBit (Nat.log 2 p - j) ↔
        (Nat.digits 2 p).getD j 0 =
          (Nat.digits 2 p).getD (Nat.log 2 p - j) 0) := by
    intro j hj
    rw [digits_two_getD p j (by omega), digits_two_getD p (Nat.log 2 p - j)
      (by omega)]
    rw [Nat.testBit_to_div_mod, Nat.testBit_to_div_mod]
    constructor
    · intro hb
      rw [decide_eq_decide] at hb
      omega
    · intro hv
      rw [hv]
  constructor
  · intro hrev j hj
    rw [hbit j hj]
    have hjr : j < (Nat.digits 2 p).reverse.length := by
      rw [List.length_reverse, hlen]
      omega
    have h2 : (Nat.digits 2 p).reverse.getD j 0 =
        (Nat.digits 2 p).getD (Nat.log 2 p - j) 0 := by
      rw [List.getD_eq_getElem _ _ hjr, List.getElem_reverse,
        List.getD_eq_getElem _ _
          (show Nat.log 2 p - j < (Nat.digits 2 p).length by
            rw [hlen]; omega)]
      have hidx : (Nat.digits 2 p).length - 1 - j = Nat.log 2 p - j := by
        rw [hlen]
        omega
      simp only [hidx]
    rw [← h2, hrev]
  · intro hb
    apply List.ext_getElem (by simp)
    intro n h1 h2
    have hn : n ≤ Nat.log 2 p := by
      rw [List.length_reverse, hlen] at h1
      omega
    rw [List.getElem_reverse]
    have hidx : (Nat.digits 2 p).length - 1 - n = Nat.log 2 p - n := by
      rw [hlen]
      omega
    simp only [hidx]
    have hx := (hbit n hn).mp (hb n hn)
    rw [List.getD_eq_getElem _ _
        (show n < (Nat.digits 2 p).length by rw [hlen]; omega),
      List.getD_eq_getElem _ _
        (show Nat.log 2 p - n < (Nat.digits 2 p).length by
          rw [hlen]; omega)] at hx
    exact hx.symm

theorem isBinPal_spec (s : BState) (m p : Nat) (hInv : InvB s m)
    (hmp : m ≤ p) (hp : 0 < p) (hlt : p < 2 ^ 64) :
    ((isBinPal s p).1 = true ↔
      (Nat.digits 2 p).reverse = Nat.digits 2 p) ∧
    InvB (isBinPal s p).2 p := by
  obtain ⟨k, hk63, hmsb, hmask, hkm⟩ := hInv
  by_cases hev : p % 2 = 0
  · refine ⟨?_, ?_⟩
    · rw [show (isBinPal s p).1 = false by simp [isBinPal, hev]]
      constructor
      · intro h
        exact absurd h (by simp)
      · intro hrev
        exfalso
        have hne : p ≠ 0 := by omega
        have hd := Nat.digits_def' (by norm_num : 1 < 2) hp
        have hlast := Nat.getLast_digit_ne_zero 2 hne
        have hnil : Nat.digits 2 p ≠ [] := by
          rw [hd]
          simp
        have hhead : (Nat.digits 2 p).head hnil = 0 := by
          rw [head_congr hd hnil (by simp)]
          simp [hev]
        have hrev' : (Nat.digits 2 p).getLast hnil =
            (Nat.digits 2 p).head hnil := by
          rw [List.getLast_eq_head_reverse]
          exact head_congr hrev _ hnil
        rw [hrev', hhead] at hlast
        exact hlast rfl
    · rw [show (isBinPal s p).2 = s by simp [isBinPal, hev]]
      exact ⟨k, hk63, hmsb, hmask, le_trans hkm (by omega)⟩
  · have hkp : 2 ^ k ≤ p := le_trans hkm (by omega)
    have hK63 : Nat.log 2 p ≤ 63 := by
      have := Nat.log_lt_of_lt_pow (by omega : p ≠ 0) hlt
      omega
    have hgrow := growB_spec 64 k p hkp hlt hk63 (by omega)
    have hres : isBinPal s p =
        (pairScan p (2 ^ Nat.log 2 p) 1 64,
          ⟨2 ^ Nat.log 2 p, 2 ^ 64 - 2 ^ (Nat.log 2 p + 1)⟩) := by
      rw [isBinPal, if_neg hev, hmsb, hmask, hgrow]
    have hscan := pairScan_spec p (Nat.log 2 p) 64 (Nat.log 2 p) 0
      (by omega) (by omega)
    rw [pow_zero] at hscan
    refine ⟨?_, ?_⟩
    · rw [hres]
      rw [digits_two_palindrome_iff p hp]
      constructor
      · intro h j hj
        exact (hscan.mp h) j (Nat.zero_le j) hj
      · intro h
        exact hscan.mpr fun j _ hj => h j hj
    · rw [hres]
      refine ⟨Nat.log 2 p, hK63, rfl, rfl, ?_⟩
      have := Nat.pow_log_le_self 2 (by omega : p ≠ 0)
      omega

/-- Folds the detector over a list of inputs, recording each verdict. -/
def detRun : BState → List Nat → List Bool
  | _, [] => []
  | s, v :: vs => (isBinPal s v).1 :: detRun (isBinPal s v).2 vs

theorem detRun_correct : ∀ (l : List Nat) (s : BState) (m : Nat),
    InvB s m → (∀ v ∈ l, v < 2 ^ 64) →
    List.Chain' (· < ·) (m :: l) →
    detRun s l = l.map fun v =>
      decide ((Nat.digits 2 v).reverse = Nat.digits 2 v) := by
  intro l
  induction l with
  | nil =>
    intro s m _ _ _
    simp [detRun]
  | cons v vs ih =>
    intro s m hInv hlt hchain
    obtain ⟨hmv, hchain'⟩ := List.chain'_cons.mp hchain
    have hv64 := hlt v (List.mem_cons_self _ _)
    obtain ⟨hiff, hInv'⟩ :=
      isBinPal_spec s m v hInv (by omega) (by omega) hv64
    simp only [detRun, List.map]
    congr 1
    · cases hb : (isBinPal s v).1 with
      | false =>
        symm
        rw [decide_eq_false_iff_not]
        intro hpal
        have := hiff.mpr hpal
        rw [hb] at this
        exact Bool.false_ne_true this
      | true =>
        symm
        rw [decide_eq_true_eq]
        exact hiff.mp hb
    · exact ih (isBinPal s v).2 v hInv'
        (fun w hw => hlt w (List.mem_cons_of_mem _ hw)) hchain'

/-- C5 (confirmed): for every strictly increasing sequence of positive
inputs below `2^64`, the successive verdicts of a fresh
`IsBinaryPalindrome` functor are exactly given by the reference check
"the base-2 digit string of the input, which has no leading zero, equals
its own reversal"; and on any even input, whatever the detector's state,
the verdict is `false`. -/
theorem detector_correct (l : List Nat) (hpos : ∀ v ∈ l, 0 < v)
    (hlt : ∀ v ∈ l, v < 2 ^ 64) (hmono : List.Chain' (· < ·) l) :
    detRun initB l = (l.map fun v =>
      decide ((Nat.digits 2 v).reverse = Nat.digits 2 v)) ∧
    ∀ (s : BState) (p : Nat), p % 2 = 0 → (isBinPal s p).1 = false := by
  refine ⟨?_, ?_⟩
  · apply detRun_correct l initB 0 ?_ hlt ?_
    · exact ⟨0, by norm_num, rfl, rfl, by simp⟩
    · cases l with
      | nil => simp
      | cons v vs =>
        exact List.chain'_cons.mpr
          ⟨hpos v (List.mem_cons_self _ _), hmono⟩
  · intro s p hp
    simp [isBinPal, hp]

/-- C5 witness on the inputs `4, 5, 6, 9, 21`. -/
theorem detector_correct_witness :
    detRun initB [4, 5, 6, 9, 21] = ([4, 5, 6, 9, 21].map fun v =>
      decide ((Nat.digits 2 v).reverse = Nat.digits 2 v)) ∧
    ∀ (s : BState) (p : Nat), p % 2 = 0 → (isBinPal s p).1 = false :=
  detector_correct [4, 5, 6, 9, 21] (by decide) (by decide)
    (by norm_num [List.chain'_cons])

/-- C1 (refuted — code bug): at `N = 18`, `calc_Pn` returns `975`, yet
`325` already exceeds `2 · 18 = 36` and is palindromic in base 18
(`101₁₈`) and in base 2 (`101000101₂`), and `325 < 975`.  So the value
returned is not the smallest integer exceeding `2N` that is palindromic
in both bases: the driver skips the roll-over value `325 = 18² + 1`
without testing it. -/
theorem calcPn_not_smallest :
    calcPn 18 100 = some 975 ∧ 2 * 18 < 325 ∧
    (Nat.digits 18 325).reverse = Nat.digits 18 325 ∧
    (Nat.digits 2 325).reverse = Nat.digits 2 325 ∧
    (325 : Nat) < 975 := by
  refine ⟨by decide, by decide, ?_, ?_, by decide⟩
  · norm_num [Nat.digits_def']
  · norm_num [Nat.digits_def']

set_option maxRecDepth 10000 in
/-- C6 (confirmed): `calc_Pn(3) = 6643 = 100010001₃ = 1100111110011₂`,
and the emission loop of `main`, started with running maximum `0` at
`N = 3`, reports `(3, 6643)` first; `calc_Pn(4) = 15 = 33₄ = 1111₂` is
smaller than `6643`, so `N = 4` is not emitted and the running maximum
stays `6643`. -/
theorem first_emission :
    calcPn 3 600 = some 6643 ∧
    Nat.digits 3 6643 = [1, 0, 0, 0, 1, 0, 0, 0, 1] ∧
    Nat.digits 2 6643 = [1, 1, 0, 0, 1, 1, 1, 1, 1, 0, 0, 1, 1] ∧
    calcPn 4 600 = some 15 ∧
    Nat.digits 4 15 = [3, 3] ∧ Nat.digits 2 15 = [1, 1, 1, 1] ∧
    (15 : Nat) < 6643 ∧
    ∀ rest, mainEmits 600 0 (3 :: 4 :: rest) =
      (3, 6643) :: mainEmits 600 6643 rest := by
  have h3 : calcPn 3 600 = some 6643 := by decide
  have h4 : calcPn 4 600 = some 15 := by decide
  refine ⟨h3, ?_, ?_, h4, ?_, ?_, by decide, ?_⟩
  · norm_num [Nat.digits_def']
  · norm_num [Nat.digits_def']
  · norm_num [Nat.digits_def']
  · norm_num [Nat.digits_def']
  · intro rest
    simp [mainEmits, h3, h4]

end BentWinter2025
